import Mathlib

/-!
# Boost.DLL `library_info` and `elf_info`: a shallow embedding

The development follows `boost/dll/detail/elf_info.hpp` and
`boost/dll/library_info.hpp`.

Modelling conventions.

* A file is a list of bytes (`List Nat`, every real byte is below 256).
* `std.ifstream` is the open stream as `library_info` configures it: the
  exception mask holds `failbit`, `badbit` and `eofbit`, so every operation that
  would set one of these bits throws `std::ios_base::failure`.  The bit stays
  set afterwards, which makes every later operation on the stream throw too.
* The stream keeps the default format flags (`skipws` is set) and the classic
  "C" locale.
* Structures are overlaid on the raw bytes as the source does it with
  `read_raw`: host byte order is little endian, `std::size_t` has 64 bits, and
  the structures have no padding.
* Reading memory outside a `std::vector` buffer (a C string that is not
  terminated inside its table) is undefined behaviour and is a result of its
  own, `Result.undefined`.  Taking the address `&v[0]` of an empty vector for a
  transfer of zero bytes touches no memory and is treated as harmless.
* Memory allocation (`resize`, `reserve`, `push_back`) always succeeds.
-/

namespace std

/-- An open `std::ifstream`: the bytes of the file, the get position and
whether `failbit` has been set by an earlier operation. -/
structure ifstream where
  bytes : List Nat
  pos : Nat
  failbit : Bool
deriving DecidableEq

/-- How a piece of code that works on the stream ends: it returns `value` and
leaves the stream in state `f`, or `std::ios_base::failure` propagates out of
it, or it reads memory outside a buffer. -/
inductive Result (α : Type) where
  | ok (value : α) (f : ifstream)
  | failure (f : ifstream)
  | undefined
deriving DecidableEq

/-- Code that works on an open stream. -/
def StreamM (α : Type) : Type := ifstream → Result α

/-- Sequencing: an exception or undefined behaviour ends the computation. -/
def StreamM.bind {α β : Type} (m : StreamM α) (k : α → StreamM β) : StreamM β :=
  fun f =>
    match m f with
    | .ok a f1 => k a f1
    | .failure f1 => .failure f1
    | .undefined => .undefined

instance : Monad StreamM where
  pure a := fun f => .ok a f
  bind := StreamM.bind

/-- Use of the result of a memory read: `none` is an out-of-bounds read. -/
def StreamM.deref {α : Type} : Option α → StreamM α
  | some a => fun f => .ok a f
  | none => fun _ => .undefined

/-- A piece of code that, when it returns, leaves the stream on the same file
and with the same failure bit. -/
def keeps_file {α : Type} (m : StreamM α) : Prop :=
  ∀ f a f1, m f = .ok a f1 → f1.bytes = f.bytes ∧ f1.failbit = f.failbit

/-- The largest offset plus one that `std::streamoff` can hold. -/
def streamoff_limit : Nat := 2 ^ 63

/-- `f.seekg(off)` with an absolute offset.  The argument is the unsigned value
the caller computed; it is converted to the signed `std::streamoff`, and a
negative position makes the seek fail.  Seeking past the end of the file is
allowed; the largest offset a file system accepts, which may lie below that of
`std::streamoff`, is not modelled: where a claim below needs a seek to
succeed, its offset lies inside the file. -/
def seekg (off : Nat) : StreamM Unit := fun f =>
  if f.failbit then .failure f
  else if off < streamoff_limit then .ok () { f with pos := off }
  else .failure { f with failbit := true }

/-- `f.tellg()`. -/
def tellg : StreamM Nat := fun f =>
  if f.failbit then .failure f else .ok f.pos f

/-- `f.read(buffer, n)`: unformatted read of exactly `n` bytes; fewer bytes
available sets `eofbit | failbit`. -/
def read (n : Nat) : StreamM (List Nat) := fun f =>
  if f.failbit then .failure f
  else
    let got := (f.bytes.drop f.pos).take n
    if got.length = n then .ok got { f with pos := f.pos + n }
    else .failure { f with pos := f.pos + got.length, failbit := true }

/-- `std::isspace` in the classic locale. -/
def isspace (c : Nat) : Bool := c == 32 || (9 ≤ c && c ≤ 13)

/-- `f >> ch` for an `unsigned char`: formatted input.  The sentry skips
leading whitespace (`skipws` is set), then one character is extracted; end of
file before a character is found sets `failbit | eofbit`. -/
def extract : StreamM Nat := fun f =>
  if f.failbit then .failure f
  else
    match (f.bytes.drop f.pos).dropWhile isspace with
    | [] => .failure { f with pos := f.bytes.length, failbit := true }
    | c :: rest => .ok c { f with pos := f.bytes.length - rest.length }

/-- The characters `>>` still delivers from the current position: the bytes
ahead that are not whitespace. -/
def chars_ahead (f : ifstream) : List Nat := (f.bytes.drop f.pos).filter (fun c => !isspace c)

/-- The C string that starts at `buf + off`: the bytes up to the next NUL.
`none` when no NUL follows inside the buffer, so that reading the string runs
off the end of the buffer. -/
def c_str (buf : List Nat) (off : Nat) : Option (List Nat) :=
  if 0 ∈ buf.drop off then some ((buf.drop off).takeWhile (· ≠ 0)) else none

/-- The characters of a `const char*` argument: what precedes the first NUL. -/
def c_string (s : List Nat) : List Nat := s.takeWhile (· ≠ 0)

/-- Little-endian value of a run of bytes. -/
def le : List Nat → Nat
  | [] => 0
  | b :: bs => b + 256 * le bs

/-- The unsigned integer field of `width` bytes at byte offset `off` of a raw
structure. -/
def field (raw : List Nat) (off width : Nat) : Nat := le ((raw.drop off).take width)

/-- Modulus of `std::size_t` and `boost::uint64_t` arithmetic. -/
def size_t_mod : Nat := 2 ^ 64

/-- A read of `n` bytes at position `p` finds its bytes in the file: there is
nothing to read or all `n` bytes are there. -/
def readable (data : List Nat) (p n : Nat) : Prop := n = 0 ∨ p + n ≤ data.length

/-- A piece of code that leaves the failure bit set whenever it throws. -/
def sets_failbit {α : Type} (m : StreamM α) : Prop :=
  ∀ f f1, m f = .failure f1 → f1.failbit = true ∧ f1.bytes = f.bytes

instance (data : List Nat) (p n : Nat) : Decidable (readable data p n) := by
  unfold readable; infer_instance

/-- A piece of code that reads no memory outside a buffer. -/
def stays_in_bounds {α : Type} (m : StreamM α) : Prop := ∀ f, m f ≠ .undefined

end std

namespace boost.dll.detail
open std

/-- The template parameter `AddressOffsetT` of `elf_info`. -/
inductive AddressOffsetT where
  | uint32_t
  | uint64_t
deriving DecidableEq

/-- The `sizeof` of the template parameter. -/
def AddressOffsetT.sizeof : AddressOffsetT → Nat
  | .uint32_t => 4
  | .uint64_t => 8

/-- Fields of `Elf_Ehdr_template`. -/
structure header_t where
  e_ident : List Nat
  e_type : Nat
  e_machine : Nat
  e_version : Nat
  e_entry : Nat
  e_phoff : Nat
  e_shoff : Nat
  e_flags : Nat
  e_ehsize : Nat
  e_phentsize : Nat
  e_phnum : Nat
  e_shentsize : Nat
  e_shnum : Nat
  e_shstrndx : Nat
deriving DecidableEq

/-- Fields of `Elf_Shdr_template`. -/
structure section_t where
  sh_name : Nat
  sh_type : Nat
  sh_flags : Nat
  sh_addr : Nat
  sh_offset : Nat
  sh_size : Nat
  sh_link : Nat
  sh_info : Nat
  sh_addralign : Nat
  sh_entsize : Nat
deriving DecidableEq

/-- Fields of `Elf_Sym_template` (both specialisations have the same fields,
in a different order). -/
structure symbol_t where
  st_name : Nat
  st_value : Nat
  st_size : Nat
  st_info : Nat
  st_other : Nat
  st_shndx : Nat
deriving DecidableEq

/-- Value of `sizeof(header_t)`: 52 or 64. -/
def header_t.sizeof (A : AddressOffsetT) : Nat := 40 + 3 * A.sizeof

/-- Value of `sizeof(section_t)`: 40 or 64. -/
def section_t.sizeof (A : AddressOffsetT) : Nat := 16 + 6 * A.sizeof

/-- Value of `sizeof(symbol_t)`: 16 or 24. -/
def symbol_t.sizeof (A : AddressOffsetT) : Nat := 8 + 2 * A.sizeof

/-- Overlay of `Elf_Ehdr_template<AddressOffsetT>` on raw bytes. -/
def header_t.decode (A : AddressOffsetT) (raw : List Nat) : header_t :=
  let a := A.sizeof
  { e_ident := raw.take 16
    e_type := field raw 16 2
    e_machine := field raw 18 2
    e_version := field raw 20 4
    e_entry := field raw 24 a
    e_phoff := field raw (24 + a) a
    e_shoff := field raw (24 + 2 * a) a
    e_flags := field raw (24 + 3 * a) 4
    e_ehsize := field raw (28 + 3 * a) 2
    e_phentsize := field raw (30 + 3 * a) 2
    e_phnum := field raw (32 + 3 * a) 2
    e_shentsize := field raw (34 + 3 * a) 2
    e_shnum := field raw (36 + 3 * a) 2
    e_shstrndx := field raw (38 + 3 * a) 2 }

/-- Overlay of `Elf_Shdr_template<AddressOffsetT>` on raw bytes. -/
def section_t.decode (A : AddressOffsetT) (raw : List Nat) : section_t :=
  let a := A.sizeof
  { sh_name := field raw 0 4
    sh_type := field raw 4 4
    sh_flags := field raw 8 a
    sh_addr := field raw (8 + a) a
    sh_offset := field raw (8 + 2 * a) a
    sh_size := field raw (8 + 3 * a) a
    sh_link := field raw (8 + 4 * a) 4
    sh_info := field raw (12 + 4 * a) 4
    sh_addralign := field raw (16 + 4 * a) a
    sh_entsize := field raw (16 + 5 * a) a }

/-- Overlay of the two specialisations of `Elf_Sym_template` on raw bytes. -/
def symbol_t.decode : AddressOffsetT → List Nat → symbol_t
  | .uint32_t, raw =>
    { st_name := field raw 0 4
      st_value := field raw 4 4
      st_size := field raw 8 4
      st_info := field raw 12 1
      st_other := field raw 13 1
      st_shndx := field raw 14 2 }
  | .uint64_t, raw =>
    { st_name := field raw 0 4
      st_info := field raw 4 1
      st_other := field raw 5 1
      st_shndx := field raw 6 2
      st_value := field raw 8 8
      st_size := field raw 16 8 }

/-- The `count` symbol records stored back to back in `raw`: the content of the
vector `symbols` after `read_raw(f, symbols[0], count * sizeof(symbol_t))`. -/
def symbol_t.decode_all (A : AddressOffsetT) (count : Nat) (raw : List Nat) : List symbol_t :=
  (List.range count).map fun i =>
    symbol_t.decode A ((raw.drop (i * symbol_t.sizeof A)).take (symbol_t.sizeof A))

namespace elf_info

def SHT_SYMTAB_ : Nat := 2
def SHT_STRTAB_ : Nat := 3
def STB_LOCAL_ : Nat := 0
def STB_GLOBAL_ : Nat := 1
def STB_WEAK_ : Nat := 2
def STV_DEFAULT_ : Nat := 0
def STV_INTERNAL_ : Nat := 1
def STV_HIDDEN_ : Nat := 2
def STV_PROTECTED_ : Nat := 3

/-- The array `magic_bytes` of `parsing_supported`. -/
def magic_bytes (A : AddressOffsetT) : List Nat :=
  [0x7f, 69, 76, 70, if AddressOffsetT.sizeof .uint32_t = A.sizeof then 1 else 2]

/-- The `for` loop of `parsing_supported` over the remaining magic bytes. -/
def parsing_supported_loop : List Nat → StreamM Bool
  | [] => pure true
  | m :: rest => do
    let ch ← extract
    if ch ≠ m then pure false else parsing_supported_loop rest

/-- Model of `elf_info::parsing_supported`. -/
def parsing_supported (A : AddressOffsetT) : StreamM Bool := do
  seekg 0
  parsing_supported_loop (magic_bytes A)

/-- Model of `elf_info::is_visible`. -/
def is_visible (sym : symbol_t) : Bool :=
  (sym.st_other &&& 0x03) == STV_DEFAULT_ && (sym.st_info >>> 4) != STB_LOCAL_ && sym.st_size != 0

/-- `read_raw(f, value)` for a `section_t`. -/
def read_section (A : AddressOffsetT) : StreamM section_t := do
  let raw ← read (section_t.sizeof A)
  pure (section_t.decode A raw)

/-- Model of `elf_info::header`. -/
def header (A : AddressOffsetT) : StreamM header_t := do
  seekg 0
  let raw ← read (header_t.sizeof A)
  pure (header_t.decode A raw)

/-- Model of `elf_info::sections_names_raw`; the result is the vector
`sections`. -/
def sections_names_raw (A : AddressOffsetT) : StreamM (List Nat) := do
  let elf ← header A
  seekg ((elf.e_shoff + elf.e_shstrndx * section_t.sizeof A) % size_t_mod)
  let section_names_section ← read_section A
  seekg section_names_section.sh_offset
  read section_names_section.sh_size

/-- The `do ... while` loop of `sections`: `name_begin` is the offset of the
pointer inside `names`, `ret` the vector built so far.  Every round moves the
pointer forward, so `names.length` rounds are always enough; `none` is a read
outside `names`. -/
def sections_loop (names : List Nat) : Nat → Nat → List (List Nat) → Option (List (List Nat))
  | 0, _, _ => none
  | fuel + 1, name_begin, ret =>
    match c_str names name_begin with
    | none => none
    | some name =>
      if name_begin + (name.length + 1) ≠ names.length then
        sections_loop names fuel (name_begin + (name.length + 1)) (ret ++ [name])
      else some (ret ++ [name])

/-- Model of `elf_info::sections`. -/
def sections (A : AddressOffsetT) : StreamM (List (List Nat)) := do
  let names ← sections_names_raw A
  let _ ← header A
  StreamM.deref (sections_loop names names.length 0 [])

/-- The `for` loop of `symbols_text` with `n` section headers still to read;
`acc` holds the vectors `symbols` and `text`. -/
def symbols_text_loop (A : AddressOffsetT) :
    Nat → List symbol_t × List Nat → StreamM (List symbol_t × List Nat)
  | 0, acc => pure acc
  | n + 1, acc => do
    let section_ ← read_section A
    if section_.sh_type = SHT_SYMTAB_ then
      let pos ← tellg
      seekg section_.sh_offset
      let raw ← read (section_.sh_size - section_.sh_size % symbol_t.sizeof A)
      seekg pos
      symbols_text_loop A n
        (symbol_t.decode_all A (section_.sh_size / symbol_t.sizeof A) raw, acc.2)
    else if section_.sh_type = SHT_STRTAB_ then
      let pos ← tellg
      seekg section_.sh_offset
      let raw ← read section_.sh_size
      seekg pos
      symbols_text_loop A n (acc.1, raw)
    else symbols_text_loop A n acc

/-- Model of `elf_info::symbols_text`; the result is the pair of the vectors
`symbols` and `text`, both empty at the call. -/
def symbols_text (A : AddressOffsetT) : StreamM (List symbol_t × List Nat) := do
  let elf ← header A
  seekg elf.e_shoff
  symbols_text_loop A elf.e_shnum ([], [])

/-- The `for` loop over `symbols` shared by both overloads of `symbols`:
`keep` is the condition of the `if`, `ret` the vector built so far.  `none` is
a name read outside `text`. -/
def push_names (keep : symbol_t → Bool) (text : List Nat) :
    List symbol_t → List (List Nat) → Option (List (List Nat))
  | [], ret => some ret
  | sym :: rest, ret =>
    if keep sym then
      match c_str text sym.st_name with
      | none => none
      | some name =>
        if name.isEmpty then push_names keep text rest ret
        else push_names keep text rest (ret ++ [name])
    else push_names keep text rest ret

/-- Model of `elf_info::symbols(std::ifstream&)`. -/
def symbols (A : AddressOffsetT) : StreamM (List (List Nat)) := do
  let st ← symbols_text A
  StreamM.deref (push_names is_visible st.2 st.1 [])

/-- The `for (; index < elf.e_shnum; ++index)` loop of the second overload of
`symbols`, with `n` indices still to visit; the result is the final value of
`index`. -/
def find_section (A : AddressOffsetT) (names : List Nat) (elf : header_t)
    (section_name : List Nat) : Nat → Nat → StreamM Nat
  | 0, index => pure index
  | n + 1, index => do
    seekg ((elf.e_shoff + index * section_t.sizeof A) % size_t_mod)
    let section_ ← read_section A
    let name ← StreamM.deref (c_str names section_.sh_name)
    if name = c_string section_name then pure index
    else find_section A names elf section_name n (index + 1)

/-- Model of `elf_info::symbols(std::ifstream&, const char*)`.  The variable
`ptrs_in_section_count` only sizes a `reserve` and is left out. -/
def symbols_in (A : AddressOffsetT) (section_name : List Nat) : StreamM (List (List Nat)) := do
  let names ← sections_names_raw A
  let elf ← header A
  let index ← find_section A names elf section_name elf.e_shnum 0
  let st ← symbols_text A
  StreamM.deref (push_names (fun sym => sym.st_shndx == index && is_visible sym) st.2 st.1 [])

/-- The verdict of the magic comparison on the characters `chars` that `>>`
delivers one after the other: `some false` at the first character that differs
from its magic byte, `some true` when all magic bytes have been matched, `none`
when the characters run out first. -/
def probe : List Nat → List Nat → Option Bool
  | [], _ => some true
  | _ :: _, [] => none
  | m :: magic, c :: chars => if c ≠ m then some false else probe magic chars

/-! ### The tables of a file, read off its bytes -/

/-- The ELF header stored at the start of `data`. -/
def file_header (A : AddressOffsetT) (data : List Nat) : header_t :=
  header_t.decode A (data.take (header_t.sizeof A))

/-- The entry of index `i` of the section header table of `data`. -/
def file_section (A : AddressOffsetT) (data : List Nat) (i : Nat) : section_t :=
  section_t.decode A
    ((data.drop ((file_header A data).e_shoff + i * section_t.sizeof A)).take (section_t.sizeof A))

/-- The bytes of a section: `sh_size` bytes from file offset `sh_offset`. -/
def section_bytes (data : List Nat) (s : section_t) : List Nat :=
  (data.drop s.sh_offset).take s.sh_size

/-- The section-name string table: the bytes of the section of index
`e_shstrndx`. -/
def names_table (A : AddressOffsetT) (data : List Nat) : List Nat :=
  section_bytes data (file_section A data (file_header A data).e_shstrndx)

/-- The NUL-terminated string found at offset `off` of a string table. -/
def string_at (table : List Nat) (off : Nat) : List Nat :=
  (table.drop off).takeWhile (· ≠ 0)

/-- The decoded name of section `i`: the string at offset `sh_name` of the
section-name string table. -/
def name_of_section (A : AddressOffsetT) (data : List Nat) (i : Nat) : List Nat :=
  string_at (names_table A data) (file_section A data i).sh_name

/-- What one section header contributes to the pair (symbol records, string
table bytes) during the scan of the section header table. -/
def load_section (A : AddressOffsetT) (data : List Nat)
    (acc : List symbol_t × List Nat) (s : section_t) : List symbol_t × List Nat :=
  if s.sh_type = SHT_SYMTAB_ then
    (symbol_t.decode_all A (s.sh_size / symbol_t.sizeof A)
      ((data.drop s.sh_offset).take (s.sh_size - s.sh_size % symbol_t.sizeof A)), acc.2)
  else if s.sh_type = SHT_STRTAB_ then (acc.1, section_bytes data s)
  else acc

/-- The symbol records and the string table bytes of a file: the scan of all
`e_shnum` section headers in table order, later sections replacing earlier
ones. -/
def loaded_tables (A : AddressOffsetT) (data : List Nat) : List symbol_t × List Nat :=
  ((List.range' 0 (file_header A data).e_shnum).map (file_section A data)).foldl
    (load_section A data) ([], [])

/-- A well-formed file: every table the reader visits lies inside the file and
every string it resolves is terminated inside its table. -/
structure well_formed (A : AddressOffsetT) (data : List Nat) : Prop where
  /-- The file length fits `std::streamoff`. -/
  length_lt : data.length < streamoff_limit
  /-- The ELF header lies inside the file. -/
  header_in : header_t.sizeof A ≤ data.length
  /-- The section header table lies inside the file. -/
  table_in :
    (file_header A data).e_shoff + (file_header A data).e_shnum * section_t.sizeof A ≤ data.length
  /-- The index `e_shstrndx` designates a section header. -/
  shstrndx_lt : (file_header A data).e_shstrndx < (file_header A data).e_shnum
  /-- The section-name string table, every symbol table and every string table
  lies inside the file. -/
  sections_in : ∀ i < (file_header A data).e_shnum,
    ((file_section A data i).sh_type = SHT_SYMTAB_ ∨ (file_section A data i).sh_type = SHT_STRTAB_ ∨
        i = (file_header A data).e_shstrndx) →
      (file_section A data i).sh_offset + (file_section A data i).sh_size ≤ data.length
  /-- The section-name string table is not empty and ends with a NUL. -/
  names_terminated : (names_table A data).getLast? = some 0
  /-- Every section name starts inside the section-name string table. -/
  names_in : ∀ i < (file_header A data).e_shnum,
    (file_section A data i).sh_name < (names_table A data).length
  /-- The name of every visible symbol starts inside the string table, which
  ends with a NUL. -/
  symbol_names_in : ∀ sym ∈ (loaded_tables A data).1, is_visible sym = true →
    sym.st_name < (loaded_tables A data).2.length ∧ (loaded_tables A data).2.getLast? = some 0

instance (A : AddressOffsetT) (data : List Nat) : Decidable (well_formed A data) :=
  decidable_of_iff (_ ∧ _ ∧ _ ∧ _ ∧ _ ∧ _ ∧ _ ∧ _)
    ⟨fun ⟨h1, h2, h3, h4, h5, h6, h7, h8⟩ => ⟨h1, h2, h3, h4, h5, h6, h7, h8⟩,
      fun ⟨h1, h2, h3, h4, h5, h6, h7, h8⟩ => ⟨h1, h2, h3, h4, h5, h6, h7, h8⟩⟩

/-- Names packed one after the other, each followed by a NUL. -/
def packed (names : List (List Nat)) : List Nat := (names.map fun name => name ++ [0]).flatten

/-- The records of the symbol table section of index `k`: as many whole records
as fit in `sh_size`, decoded from the bytes at `sh_offset`. -/
def symtab_records (A : AddressOffsetT) (data : List Nat) (k : Nat) : List symbol_t :=
  symbol_t.decode_all A ((file_section A data k).sh_size / symbol_t.sizeof A)
    ((data.drop (file_section A data k).sh_offset).take
      ((file_section A data k).sh_size - (file_section A data k).sh_size % symbol_t.sizeof A))

/-- Section `k` is the last section of type `ty` in the section header table. -/
def last_of_type (A : AddressOffsetT) (data : List Nat) (ty k : Nat) : Prop :=
  k < (file_header A data).e_shnum ∧ (file_section A data k).sh_type = ty ∧
    ∀ j, j < (file_header A data).e_shnum → k < j → (file_section A data j).sh_type ≠ ty

instance (A : AddressOffsetT) (data : List Nat) (ty k : Nat) :
    Decidable (last_of_type A data ty k) := by
  unfold last_of_type; infer_instance

/-- No section of the section header table has type `ty`. -/
def none_of_type (A : AddressOffsetT) (data : List Nat) (ty : Nat) : Prop :=
  ∀ j, j < (file_header A data).e_shnum → (file_section A data j).sh_type ≠ ty

instance (A : AddressOffsetT) (data : List Nat) (ty : Nat) :
    Decidable (none_of_type A data ty) := by
  unfold none_of_type; infer_instance

/-- What the scan reads of section `i` is in the file: the section header and,
for a symbol table, its whole records, for a string table, its bytes. -/
def scan_reads (A : AddressOffsetT) (data : List Nat) (i : Nat) : Prop :=
  (file_header A data).e_shoff + (i + 1) * section_t.sizeof A ≤ data.length ∧
  ((file_section A data i).sh_type = SHT_SYMTAB_ →
    readable data (file_section A data i).sh_offset
      ((file_section A data i).sh_size - (file_section A data i).sh_size % symbol_t.sizeof A)) ∧
  ((file_section A data i).sh_type = SHT_STRTAB_ →
    readable data (file_section A data i).sh_offset (file_section A data i).sh_size)

end elf_info

/-! ### Synthetic ELF64 files -/

namespace fixture

/-- The bytes of a string literal. -/
def ascii (s : String) : List Nat := s.toList.map Char.toNat

/-- Little-endian encoding of `n` on `width` bytes. -/
def bytes_le : Nat → Nat → List Nat
  | 0, _ => []
  | width + 1, n => n % 256 :: bytes_le width (n / 256)

/-- An `Elf64_Ehdr`. -/
def elf64_header (e_shoff e_shnum e_shstrndx : Nat) : List Nat :=
  [0x7f, 69, 76, 70, 2, 1, 1, 0] ++ List.replicate 8 0
    ++ bytes_le 2 3 ++ bytes_le 2 62 ++ bytes_le 4 1
    ++ bytes_le 8 0 ++ bytes_le 8 0 ++ bytes_le 8 e_shoff
    ++ bytes_le 4 0 ++ bytes_le 2 64 ++ bytes_le 2 0 ++ bytes_le 2 0
    ++ bytes_le 2 64 ++ bytes_le 2 e_shnum ++ bytes_le 2 e_shstrndx

/-- An `Elf64_Shdr`. -/
def elf64_section (sh_name sh_type sh_offset sh_size sh_link sh_entsize : Nat) : List Nat :=
  bytes_le 4 sh_name ++ bytes_le 4 sh_type ++ bytes_le 8 0 ++ bytes_le 8 0
    ++ bytes_le 8 sh_offset ++ bytes_le 8 sh_size ++ bytes_le 4 sh_link ++ bytes_le 4 0
    ++ bytes_le 8 1 ++ bytes_le 8 sh_entsize

/-- An `Elf64_Sym`. -/
def elf64_symbol (st_name st_info st_other st_shndx st_size : Nat) : List Nat :=
  bytes_le 4 st_name ++ bytes_le 1 st_info ++ bytes_le 1 st_other ++ bytes_le 2 st_shndx
    ++ bytes_le 8 0 ++ bytes_le 8 st_size

/-- An ELF64 file with the three sections `.text`, `.data`, `.shstrtab`, whose
names are packed in section-table order. -/
def three_sections : List Nat :=
  elf64_header 64 3 2
    ++ elf64_section 0 1 278 0 0 0
    ++ elf64_section 6 1 278 0 0 0
    ++ elf64_section 12 3 256 22 0 0
    ++ ascii ".text\x00.data\x00.shstrtab\x00"

/-- The same three sections, with the names packed in the opposite order in
the string table. -/
def three_sections_repacked : List Nat :=
  elf64_header 64 3 2
    ++ elf64_section 16 1 278 0 0 0
    ++ elf64_section 10 1 278 0 0 0
    ++ elf64_section 0 3 256 22 0 0
    ++ ascii ".shstrtab\x00.data\x00.text\x00"

/-- An ELF64 file with the sections (null), `.text`, `.data`, `.shstrtab`,
`.symtab`, `.strtab` and seven symbol records: the null symbol, `foo` (global
function in `.text`), `bar` (global object in `.data`), `loc` (local), `hid`
(hidden), `zero` (size 0) and a global object without a name. -/
def with_symbols : List Nat :=
  elf64_header 64 6 3
    ++ elf64_section 0 0 0 0 0 0
    ++ elf64_section 1 1 448 8 0 0
    ++ elf64_section 7 1 456 8 0 0
    ++ elf64_section 13 3 464 39 0 0
    ++ elf64_section 23 2 503 168 5 24
    ++ elf64_section 31 3 671 22 0 0
    ++ List.replicate 16 144
    ++ ascii "\x00.text\x00.data\x00.shstrtab\x00.symtab\x00.strtab\x00"
    ++ elf64_symbol 0 0 0 0 0
    ++ elf64_symbol 1 18 0 1 4
    ++ elf64_symbol 5 17 0 2 8
    ++ elf64_symbol 9 2 0 1 4
    ++ elf64_symbol 13 18 2 1 4
    ++ elf64_symbol 17 18 0 1 0
    ++ elf64_symbol 0 17 0 2 4
    ++ ascii "\x00foo\x00bar\x00loc\x00hid\x00zero\x00"

/-- An ELF64 file with the sections (null), `.text`, `.symtab`, `.strtab`,
`.shstrtab` in this order: the symbol table links the string table of index 3
(`sh_link = 3`), and the section-name string table is the last string table of
the file.  The only named symbol is the global function `foo` in `.text`. -/
def strtab_not_last : List Nat :=
  elf64_header 64 5 4
    ++ elf64_section 0 0 0 0 0 0
    ++ elf64_section 1 1 384 8 0 0
    ++ elf64_section 7 2 392 48 3 24
    ++ elf64_section 15 3 440 5 0 0
    ++ elf64_section 23 3 445 33 0 0
    ++ List.replicate 8 144
    ++ elf64_symbol 0 0 0 0 0
    ++ elf64_symbol 1 18 0 1 4
    ++ ascii "\x00foo\x00"
    ++ ascii "\x00.text\x00.symtab\x00.strtab\x00.shstrtab\x00"

/-- An ELF64 file with the sections (null), `.text`, `.shstrtab`, `.symtab`,
`.strtab` whose only named symbol, a global function in `.text`, has
`st_name = 100` while the string table has 5 bytes. -/
def name_out_of_table : List Nat :=
  elf64_header 64 5 2
    ++ elf64_section 0 0 0 0 0 0
    ++ elf64_section 1 1 384 8 0 0
    ++ elf64_section 7 3 392 33 0 0
    ++ elf64_section 17 2 425 48 4 24
    ++ elf64_section 25 3 473 5 0 0
    ++ List.replicate 8 144
    ++ ascii "\x00.text\x00.shstrtab\x00.symtab\x00.strtab\x00"
    ++ elf64_symbol 0 0 0 0 0
    ++ elf64_symbol 100 18 0 1 4
    ++ ascii "\x00foo\x00"

/-- An ELF64 file with the sections (null), `.shstrtab`, `.strtab`, `.symtab`
whose symbol table declares 60 bytes, two whole records and 12 bytes more; the
file ends right after the second record. -/
def partial_record : List Nat :=
  elf64_header 64 4 1
    ++ elf64_section 0 0 0 0 0 0
    ++ elf64_section 1 3 320 27 0 0
    ++ elf64_section 11 3 347 5 0 0
    ++ elf64_section 19 2 352 60 2 24
    ++ ascii "\x00.shstrtab\x00.strtab\x00.symtab\x00"
    ++ ascii "\x00foo\x00"
    ++ elf64_symbol 0 0 0 0 0
    ++ elf64_symbol 1 18 0 1 4

/-- The file with seven symbol records, except that its second record, the
global function `foo`, has `st_shndx = 6`, the number of entries of the section
header table. -/
def index_past_table : List Nat :=
  elf64_header 64 6 3
    ++ elf64_section 0 0 0 0 0 0
    ++ elf64_section 1 1 448 8 0 0
    ++ elf64_section 7 1 456 8 0 0
    ++ elf64_section 13 3 464 39 0 0
    ++ elf64_section 23 2 503 168 5 24
    ++ elf64_section 31 3 671 22 0 0
    ++ List.replicate 16 144
    ++ ascii "\x00.text\x00.data\x00.shstrtab\x00.symtab\x00.strtab\x00"
    ++ elf64_symbol 0 0 0 0 0
    ++ elf64_symbol 1 18 0 6 4
    ++ elf64_symbol 5 17 0 2 8
    ++ elf64_symbol 9 2 0 1 4
    ++ elf64_symbol 13 18 2 1 4
    ++ elf64_symbol 17 18 0 1 0
    ++ elf64_symbol 0 17 0 2 4
    ++ ascii "\x00foo\x00bar\x00loc\x00hid\x00zero\x00"

end fixture
end boost.dll.detail

namespace boost.dll
open std

/-- The host the library is compiled for: the Boost.Predef macros the policy
functions test and the value of `sizeof(void*)`. -/
structure host where
  BOOST_OS_WINDOWS : Bool
  BOOST_OS_MACOS : Bool
  BOOST_OS_IOS : Bool
  sizeof_void_ptr : Nat
deriving DecidableEq

namespace library_info

/-- The enumeration of `active_impl_`. -/
inductive tag where
  | tag_none
  | tag_elf_info32
  | tag_elf_info64
  | tag_pe_info32
  | tag_pe_info64
  | tag_macho_info32
  | tag_macho_info64
deriving DecidableEq

/-- Model of `throw_if_in_32bit`; the error is the message of the
`std::runtime_error`. -/
def throw_if_in_32bit (h : host) : Except String Unit :=
  if h.sizeof_void_ptr = 4 then throw "Not native format: 64bit binary" else pure ()

/-- Model of `throw_if_in_windows`. -/
def throw_if_in_windows (h : host) : Except String Unit :=
  if h.BOOST_OS_WINDOWS then throw "Not native format: not a PE binary" else pure ()

/-- Model of `throw_if_in_linux`. -/
def throw_if_in_linux (h : host) : Except String Unit :=
  if !h.BOOST_OS_WINDOWS && !h.BOOST_OS_MACOS && !h.BOOST_OS_IOS then
    throw "Not native format: not an ELF binary"
  else pure ()

/-- Model of `throw_if_in_macos`. -/
def throw_if_in_macos (h : host) : Except String Unit :=
  if h.BOOST_OS_MACOS || h.BOOST_OS_IOS then
    throw "Not native format: not an Mach-O binary"
  else pure ()

/-- The results of the six `parsing_supported` calls on the opened file. -/
structure detectors where
  elf_info32 : Bool
  elf_info64 : Bool
  pe_info32 : Bool
  pe_info64 : Bool
  macho_info32 : Bool
  macho_info64 : Bool
deriving DecidableEq

/-- Model of `library_info::init`.  The headers `pe_info.hpp` and
`macho_info.hpp` are not at hand, so the outcome of every detector on the
opened file is a parameter.  The result is the final value of `active_impl_`,
or the message of the `std::runtime_error` thrown. -/
def init (d : detectors) (h : host) (throw_if_not_native : Bool) : Except String tag :=
  if d.elf_info32 then do
    if throw_if_not_native then
      throw_if_in_windows h
      throw_if_in_macos h
    pure tag.tag_elf_info32
  else if d.elf_info64 then do
    if throw_if_not_native then
      throw_if_in_windows h
      throw_if_in_macos h
      throw_if_in_32bit h
    pure tag.tag_elf_info64
  else if d.pe_info32 then do
    if throw_if_not_native then
      throw_if_in_linux h
      throw_if_in_macos h
    pure tag.tag_pe_info32
  else if d.pe_info64 then do
    if throw_if_not_native then
      throw_if_in_linux h
      throw_if_in_macos h
      throw_if_in_32bit h
    pure tag.tag_pe_info64
  else if d.macho_info32 then do
    if throw_if_not_native then
      throw_if_in_linux h
      throw_if_in_windows h
    pure tag.tag_macho_info32
  else if d.macho_info64 then do
    if throw_if_not_native then
      throw_if_in_linux h
      throw_if_in_windows h
      throw_if_in_32bit h
    pure tag.tag_macho_info64
  else throw "Unsupported binary format"

/-- The detectors in probing order, each with the tag it activates. -/
def probe_order (d : detectors) : List (Bool × tag) :=
  [(d.elf_info32, tag.tag_elf_info32), (d.elf_info64, tag.tag_elf_info64),
   (d.pe_info32, tag.tag_pe_info32), (d.pe_info64, tag.tag_pe_info64),
   (d.macho_info32, tag.tag_macho_info32), (d.macho_info64, tag.tag_macho_info64)]

/-- The tag of the first detector, in probing order, that returned `true`. -/
def first_detected (d : detectors) : Option tag :=
  ((probe_order d).find? (fun p => p.1)).map (fun p => p.2)

/-- The native-format checks of one branch of `init` end normally or with a
message that is not the one of the unsupported format. -/
def policy_like (x : Except String Unit) : Prop :=
  x = .ok () ∨ ∃ e, x = .error e ∧ e ≠ "Unsupported binary format"

/-- One branch of `init`: the native-format checks when they are asked for,
then the tag. -/
def branch (flag : Bool) (x : Except String Unit) (t : tag) : Except String tag := do
  if flag then x
  pure t

/-- The native-format checks `init` runs for a detected format, in the order
of the source. -/
def native_checks (h : host) : tag → Except String Unit
  | .tag_none => pure ()
  | .tag_elf_info32 => do throw_if_in_windows h; throw_if_in_macos h
  | .tag_elf_info64 => do throw_if_in_windows h; throw_if_in_macos h; throw_if_in_32bit h
  | .tag_pe_info32 => do throw_if_in_linux h; throw_if_in_macos h
  | .tag_pe_info64 => do throw_if_in_linux h; throw_if_in_macos h; throw_if_in_32bit h
  | .tag_macho_info32 => do throw_if_in_linux h; throw_if_in_windows h
  | .tag_macho_info64 => do throw_if_in_linux h; throw_if_in_windows h; throw_if_in_32bit h

/-- The families of host operating systems the policy tells apart. -/
inductive os_family where
  | windows
  | apple
  | other
deriving DecidableEq

/-- The host belongs to a family: Windows has `BOOST_OS_WINDOWS` alone, Apple
has `BOOST_OS_MACOS` or `BOOST_OS_IOS` and not `BOOST_OS_WINDOWS`, the other
hosts have none of the three. -/
def in_family (h : host) : os_family → Prop
  | .windows => h.BOOST_OS_WINDOWS = true ∧ h.BOOST_OS_MACOS = false ∧ h.BOOST_OS_IOS = false
  | .apple => h.BOOST_OS_WINDOWS = false ∧ (h.BOOST_OS_MACOS = true ∨ h.BOOST_OS_IOS = true)
  | .other => h.BOOST_OS_WINDOWS = false ∧ h.BOOST_OS_MACOS = false ∧ h.BOOST_OS_IOS = false

/-- The host family a format is native on: ELF on the other hosts, PE on
Windows, Mach-O on Apple. -/
def native_family : tag → Option os_family
  | .tag_none => none
  | .tag_elf_info32 => some .other
  | .tag_elf_info64 => some .other
  | .tag_pe_info32 => some .windows
  | .tag_pe_info64 => some .windows
  | .tag_macho_info32 => some .apple
  | .tag_macho_info64 => some .apple

/-- The 64-bit variants of the formats. -/
def is_64bit : tag → Bool
  | .tag_elf_info64 => true
  | .tag_pe_info64 => true
  | .tag_macho_info64 => true
  | _ => false

end library_info
end boost.dll

/-! ## Lemmas on the stream -/

namespace std

/-- Running a sequence of two pieces of code. -/
@[simp] theorem bind_run {α β : Type} (m : StreamM α) (k : α → StreamM β) (f : ifstream) :
    (m >>= k) f = match m f with
      | .ok a f1 => k a f1
      | .failure f1 => .failure f1
      | .undefined => .undefined := rfl

@[simp] theorem pure_run {α : Type} (a : α) (f : ifstream) :
    (pure a : StreamM α) f = .ok a f := rfl

/-- A seek to a position that `std::streamoff` can hold succeeds. -/
theorem seekg_ok (data : List Nat) (p off : Nat) (h : off < streamoff_limit) :
    seekg off ⟨data, p, false⟩ = .ok () ⟨data, off, false⟩ := by
  simp [seekg, h]

/-- The get position of a stream without failure bit. -/
theorem tellg_ok (data : List Nat) (p : Nat) :
    tellg ⟨data, p, false⟩ = .ok p ⟨data, p, false⟩ := by
  simp [tellg]

/-- A read that stays inside the file returns the bytes at the get position. -/
theorem read_ok (data : List Nat) (p n : Nat) (h : p + n ≤ data.length) :
    read n ⟨data, p, false⟩ = .ok ((data.drop p).take n) ⟨data, p + n, false⟩ := by
  have : ((data.drop p).take n).length = n := by
    rw [List.length_take, List.length_drop]; omega
  simp [std.read, this]

/-- The primitive operations keep the file and the failure bit when they return. -/
theorem keeps_seekg (off : Nat) : keeps_file (seekg off) := by
  intro f a f1 h
  unfold seekg at h
  split at h
  · cases h
  · split at h
    · cases h; exact ⟨rfl, rfl⟩
    · cases h

theorem keeps_tellg : keeps_file tellg := by
  intro f a f1 h
  unfold tellg at h
  split at h
  · cases h
  · cases h; exact ⟨rfl, rfl⟩

theorem keeps_read (n : Nat) : keeps_file (std.read n) := by
  intro f a f1 h
  unfold std.read at h
  split at h
  · cases h
  · simp only at h
    split at h
    · cases h; exact ⟨rfl, rfl⟩
    · cases h

theorem keeps_pure {α : Type} (a : α) : keeps_file (pure a : StreamM α) := by
  intro f b f1 h
  cases h; exact ⟨rfl, rfl⟩

theorem keeps_deref {α : Type} (o : Option α) : keeps_file (StreamM.deref o) := by
  intro f b f1 h
  cases o with
  | none => cases h
  | some a => cases h; exact ⟨rfl, rfl⟩

/-- Sequencing keeps the file and the failure bit. -/
theorem keeps_bind {α β : Type} {m : StreamM α} {k : α → StreamM β}
    (hm : keeps_file m) (hk : ∀ a, keeps_file (k a)) : keeps_file (m >>= k) := by
  intro f b f1 h
  rw [bind_run] at h
  cases hmf : m f with
  | ok a f2 =>
    rw [hmf] at h
    obtain ⟨h1, h2⟩ := hm f a f2 hmf
    obtain ⟨h3, h4⟩ := hk a f2 b f1 h
    exact ⟨h3.trans h1, h4.trans h2⟩
  | failure f2 => rw [hmf] at h; cases h
  | undefined => rw [hmf] at h; cases h

/-- A memory read that returns was inside its buffer. -/
theorem deref_ok {α : Type} (o : Option α) (f f1 : ifstream) (a : α)
    (h : StreamM.deref o f = .ok a f1) : o = some a := by
  cases o with
  | none => cases h
  | some b => cases h; rfl

/-- Skipping leading whitespace loses no other character. -/
theorem filter_dropWhile (p : Nat → Bool) (l : List Nat) :
    (l.dropWhile p).filter (fun c => !p c) = l.filter (fun c => !p c) := by
  induction l with
  | nil => rfl
  | cons a l ih =>
    by_cases h : p a = true
    · simp [List.dropWhile_cons, h, ih]
    · simp [List.dropWhile_cons, h]

/-- The first character left after the skip does not satisfy the predicate. -/
theorem dropWhile_head (p : Nat → Bool) (l : List Nat) (c : Nat) (rest : List Nat)
    (h : l.dropWhile p = c :: rest) : p c = false := by
  induction l with
  | nil => simp at h
  | cons a l ih =>
    by_cases ha : p a = true
    · simp [List.dropWhile_cons, ha] at h; exact ih h
    · simp [List.dropWhile_cons, ha] at h
      rw [← h.1]; simpa using ha

/-- The bytes after the extracted character are those at the new get position. -/
theorem drop_of_dropWhile_drop (p : Nat → Bool) (l : List Nat) (k c : Nat) (rest : List Nat)
    (h : (l.drop k).dropWhile p = c :: rest) : l.drop (l.length - rest.length) = rest := by
  have h1 : rest <:+ l := by
    have : (c :: rest) <:+ l := h ▸ (List.dropWhile_suffix p).trans (List.drop_suffix k l)
    exact (List.suffix_cons c rest).trans this
  exact (List.suffix_iff_eq_drop.mp h1).symm

/-- With nothing but whitespace ahead, `>>` throws. -/
theorem extract_failure (f : ifstream) (hf : f.failbit = false) (h : chars_ahead f = []) :
    ∃ f1, extract f = .failure f1 := by
  unfold extract
  simp only [hf, Bool.false_eq_true, if_false]
  cases hd : (f.bytes.drop f.pos).dropWhile isspace with
  | nil => exact ⟨_, rfl⟩
  | cons c rest =>
    exfalso
    have h1 := filter_dropWhile isspace (f.bytes.drop f.pos)
    have h2 := dropWhile_head isspace _ c rest hd
    rw [hd] at h1
    unfold chars_ahead at h
    rw [h] at h1
    simp [h2] at h1

/-- With a character ahead, `>>` delivers it and moves past it. -/
theorem extract_ok (f : ifstream) (hf : f.failbit = false) (c : Nat) (cs : List Nat)
    (h : chars_ahead f = c :: cs) :
    ∃ f1, extract f = .ok c f1 ∧ f1.bytes = f.bytes ∧ f1.failbit = false ∧ chars_ahead f1 = cs := by
  unfold extract
  simp only [hf, Bool.false_eq_true, if_false]
  cases hd : (f.bytes.drop f.pos).dropWhile isspace with
  | nil =>
    exfalso
    have h1 := filter_dropWhile isspace (f.bytes.drop f.pos)
    rw [hd] at h1
    unfold chars_ahead at h
    rw [h] at h1
    simp at h1
  | cons c1 rest =>
    have h1 := filter_dropWhile isspace (f.bytes.drop f.pos)
    have h2 := dropWhile_head isspace _ c1 rest hd
    have h3 := drop_of_dropWhile_drop isspace f.bytes f.pos c1 rest hd
    rw [hd] at h1
    unfold chars_ahead at h
    rw [h] at h1
    simp [h2] at h1
    refine ⟨{ f with pos := f.bytes.length - rest.length }, ?_, rfl, hf, ?_⟩
    · simp [h1.1, hf]
    · simp [chars_ahead, h3, h1.2]

/-- A readable range is read as it stands in the file. -/
theorem read_readable (data : List Nat) (p n : Nat) (h : readable data p n) :
    std.read n ⟨data, p, false⟩ = .ok ((data.drop p).take n) ⟨data, p + n, false⟩ := by
  rcases h with h | h
  · subst h; simp [std.read]
  · exact read_ok data p n h

/-- A range that is not readable makes the read throw. -/
theorem read_not_readable (data : List Nat) (p n : Nat) (h : ¬ readable data p n) :
    ∃ f1, std.read n ⟨data, p, false⟩ = .failure f1 := by
  have hlen : ((data.drop p).take n).length ≠ n := by
    intro hl
    apply h
    rw [List.length_take, List.length_drop] at hl
    unfold readable
    omega
  refine ⟨⟨data, p + ((data.drop p).take n).length, true⟩, ?_⟩
  unfold std.read
  simp only [Bool.false_eq_true, if_false, hlen]

/-- A seek beyond what `std::streamoff` holds throws. -/
theorem seekg_fail (data : List Nat) (p off : Nat) (h : ¬ off < streamoff_limit) :
    seekg off ⟨data, p, false⟩ = .failure ⟨data, p, true⟩ := by
  simp [seekg, h]

theorem sets_seekg (off : Nat) : sets_failbit (seekg off) := by
  intro f f1 h
  unfold seekg at h
  split at h
  · cases h; simp_all
  · split at h
    · cases h
    · cases h; exact ⟨rfl, rfl⟩

theorem sets_tellg : sets_failbit tellg := by
  intro f f1 h
  unfold tellg at h
  split at h
  · cases h; simp_all
  · cases h

theorem sets_read (n : Nat) : sets_failbit (std.read n) := by
  intro f f1 h
  unfold std.read at h
  split at h
  · cases h; simp_all
  · simp only at h
    split at h
    · cases h
    · cases h; exact ⟨rfl, rfl⟩

theorem sets_pure {α : Type} (a : α) : sets_failbit (pure a : StreamM α) := by
  intro f f1 h; cases h

theorem sets_deref {α : Type} (o : Option α) : sets_failbit (StreamM.deref o) := by
  intro f f1 h
  cases o <;> cases h

theorem sets_bind {α β : Type} {m : StreamM α} {k : α → StreamM β}
    (hm : sets_failbit m) (hmk : keeps_file m) (hk : ∀ a, sets_failbit (k a)) :
    sets_failbit (m >>= k) := by
  intro f f1 h
  rw [bind_run] at h
  cases hmf : m f with
  | ok a f2 =>
    rw [hmf] at h
    obtain ⟨h1, h2⟩ := hk a f2 f1 h
    exact ⟨h1, h2.trans (hmk f a f2 hmf).1⟩
  | failure f2 =>
    rw [hmf] at h
    have h2 : f2 = f1 := by cases h; rfl
    subst h2
    exact hm f f2 hmf
  | undefined => rw [hmf] at h; cases h

theorem bounds_seekg (off : Nat) : stays_in_bounds (seekg off) := by
  intro f h
  unfold seekg at h
  split at h
  · cases h
  · split at h <;> cases h

theorem bounds_tellg : stays_in_bounds tellg := by
  intro f h
  unfold tellg at h
  split at h <;> cases h

theorem bounds_read (n : Nat) : stays_in_bounds (std.read n) := by
  intro f h
  unfold std.read at h
  split at h
  · cases h
  · simp only at h
    split at h <;> cases h

theorem bounds_pure {α : Type} (a : α) : stays_in_bounds (pure a : StreamM α) := by
  intro f h; cases h

theorem bounds_bind {α β : Type} {m : StreamM α} {k : α → StreamM β}
    (hm : stays_in_bounds m) (hk : ∀ a, stays_in_bounds (k a)) : stays_in_bounds (m >>= k) := by
  intro f h
  rw [bind_run] at h
  cases hmf : m f with
  | ok a f2 => rw [hmf] at h; exact hk a f2 h
  | failure f2 => rw [hmf] at h; cases h
  | undefined => exact hm f hmf

end std

/-! ## The ELF reader -/

namespace boost.dll.detail.elf_info
open std

/-- The loop of `parsing_supported` computes `probe` on the characters ahead. -/
theorem parsing_supported_loop_probe (magic : List Nat) :
    ∀ f : ifstream, f.failbit = false →
      match probe magic (chars_ahead f) with
      | some b => ∃ f1, parsing_supported_loop magic f = .ok b f1 ∧ f1.bytes = f.bytes ∧ f1.failbit = false
      | none => ∃ f1, parsing_supported_loop magic f = .failure f1 := by
  induction magic with
  | nil => intro f hf; exact ⟨f, rfl, rfl, hf⟩
  | cons m magic ih =>
    intro f hf
    cases hc : chars_ahead f with
    | nil =>
      obtain ⟨f1, h1⟩ := extract_failure f hf hc
      simp [probe, parsing_supported_loop, h1]
    | cons c cs =>
      obtain ⟨f1, h1, hb, hf1, hcs⟩ := extract_ok f hf c cs hc
      by_cases hcm : c = m
      · have := ih f1 hf1
        rw [hcs] at this
        simp only [probe, parsing_supported_loop, bind_run, h1, hcm, ne_eq, not_true_eq_false, if_false]
        cases hp : probe magic cs with
        | none => rw [hp] at this; simpa [hcm] using this
        | some b => rw [hp] at this; simpa [hcm, hb] using this
      · simp [probe, parsing_supported_loop, h1, hcm, hb, hf1]

/-- The verdict of `parsing_supported` is `probe` on the bytes of the file that are
not whitespace, whatever the get position was. -/
theorem parsing_supported_probe (A : AddressOffsetT) (f : ifstream) (hf : f.failbit = false) :
    match probe (magic_bytes A) (f.bytes.filter (fun c => !isspace c)) with
    | some b => ∃ f1, parsing_supported A f = .ok b f1 ∧ f1.bytes = f.bytes ∧ f1.failbit = false
    | none => ∃ f1, parsing_supported A f = .failure f1 := by
  have h := parsing_supported_loop_probe (magic_bytes A) { f with pos := 0 } hf
  have hs : seekg 0 f = .ok () { f with pos := 0 } := by simp [seekg, hf, streamoff_limit]
  simp only [chars_ahead, List.drop_zero] at h
  simpa [parsing_supported, hs] using h

/-- A positive verdict needs as many characters as magic bytes. -/
theorem probe_true_length (magic : List Nat) :
    ∀ chars, probe magic chars = some true → magic.length ≤ chars.length := by
  induction magic with
  | nil => intro chars _; simp
  | cons m magic ih =>
    intro chars h
    cases chars with
    | nil => simp [probe] at h
    | cons c cs =>
      by_cases hcm : c = m
      · simp [probe, hcm] at h
        have := ih cs h
        simp; omega
      · simp [probe, hcm] at h

/-- On a proper beginning of the magic the characters run out first. -/
theorem probe_short (magic : List Nat) :
    ∀ chars, chars <+: magic → chars.length < magic.length → probe magic chars = none := by
  induction magic with
  | nil => intro chars _ h; simp at h
  | cons m magic ih =>
    intro chars hp hl
    cases chars with
    | nil => rfl
    | cons c cs =>
      rw [List.cons_prefix_cons] at hp
      simp only [List.length_cons] at hl
      simp [probe, hp.1, ih cs hp.2 (by omega)]

/-- Characters that are no beginning of the magic are rejected. -/
theorem probe_mismatch (magic : List Nat) :
    ∀ chars, ¬ chars <+: magic → chars.length ≤ magic.length → probe magic chars = some false := by
  induction magic with
  | nil =>
    intro chars hp hl
    have : chars = [] := List.length_eq_zero.mp (by simpa using hl)
    subst this
    simp at hp
  | cons m magic ih =>
    intro chars hp hl
    cases chars with
    | nil => simp at hp
    | cons c cs =>
      by_cases hcm : c = m
      · rw [List.cons_prefix_cons] at hp
        simp only [List.length_cons] at hl
        simp [probe, hcm, ih cs (fun h => hp ⟨hcm, h⟩) (by omega)]
      · simp [probe, hcm]

/-- The verdict is positive exactly when the characters start with the magic. -/
theorem probe_true_iff (magic : List Nat) :
    ∀ chars, probe magic chars = some true ↔ magic <+: chars := by
  induction magic with
  | nil => intro chars; simp [probe]
  | cons m magic ih =>
    intro chars
    cases chars with
    | nil => simp [probe]
    | cons c cs =>
      by_cases hcm : c = m
      · subst hcm
        simp [probe, ih cs, List.cons_prefix_cons]
      · have hmc : ¬ m = c := fun h => hcm h.symm
        simp [probe, hcm, hmc, List.cons_prefix_cons]

/-- What `parsing_supported` accepts: it returns `true` exactly when the bytes
of the file that are not whitespace start with the magic bytes. -/
theorem parsing_supported_true_iff (A : AddressOffsetT) (f : ifstream)
    (hgood : f.failbit = false) :
    (∃ f1, parsing_supported A f = .ok true f1) ↔
      magic_bytes A <+: f.bytes.filter (fun c => !isspace c) := by
  have hmain := parsing_supported_probe A f hgood
  rw [← probe_true_iff]
  cases hp : probe (magic_bytes A) (f.bytes.filter (fun c => !isspace c)) with
  | none =>
    rw [hp] at hmain
    obtain ⟨f2, h2⟩ := hmain
    simp [h2]
  | some b =>
    rw [hp] at hmain
    obtain ⟨f2, h2, _⟩ := hmain
    cases b <;> simp [h2]

/-- No magic byte is a whitespace character. -/
theorem magic_bytes_not_space (A : AddressOffsetT) : ∀ c ∈ magic_bytes A, isspace c = false := by
  cases A <;> decide

/-- Reading the header of a file that is long enough, from any get position. -/
theorem header_ok (A : AddressOffsetT) (data : List Nat) (p : Nat)
    (h : header_t.sizeof A ≤ data.length) :
    header A ⟨data, p, false⟩ = .ok (file_header A data) ⟨data, header_t.sizeof A, false⟩ := by
  have h0 : (0 : Nat) < streamoff_limit := by decide
  have hr := read_ok data 0 (header_t.sizeof A) (by omega)
  simp only [Nat.zero_add, List.drop_zero] at hr
  simp only [header, bind_run, seekg_ok data p 0 h0, hr, pure_run, file_header]

/-- Reading a section header that lies inside the file. -/
theorem read_section_ok (A : AddressOffsetT) (data : List Nat) (p : Nat)
    (h : p + section_t.sizeof A ≤ data.length) :
    read_section A ⟨data, p, false⟩ =
      .ok (section_t.decode A ((data.drop p).take (section_t.sizeof A)))
        ⟨data, p + section_t.sizeof A, false⟩ := by
  simp only [read_section, bind_run, read_ok data p _ h, pure_run]

/-- The offset of every section header of a well-formed file is inside the file. -/
theorem offset_lt (A : AddressOffsetT) (data : List Nat) (wf : well_formed A data)
    (i : Nat) (hi : i ≤ (file_header A data).e_shnum) :
    (file_header A data).e_shoff + i * section_t.sizeof A ≤ data.length := by
  have h1 := wf.table_in
  have h2 : i * section_t.sizeof A ≤ (file_header A data).e_shnum * section_t.sizeof A :=
    Nat.mul_le_mul_right _ hi
  omega

/-- Reading the header of index `i` of a well-formed file. -/
theorem read_section_index (A : AddressOffsetT) (data : List Nat) (wf : well_formed A data)
    (i : Nat) (hi : i < (file_header A data).e_shnum) :
    read_section A ⟨data, (file_header A data).e_shoff + i * section_t.sizeof A, false⟩ =
      .ok (file_section A data i)
        ⟨data, (file_header A data).e_shoff + (i + 1) * section_t.sizeof A, false⟩ := by
  have h1 := wf.table_in
  have h2 : (i + 1) * section_t.sizeof A ≤ (file_header A data).e_shnum * section_t.sizeof A :=
    Nat.mul_le_mul_right _ hi
  have h3 : (i + 1) * section_t.sizeof A = i * section_t.sizeof A + section_t.sizeof A := by ring
  rw [read_section_ok A data _ (by omega), file_section, h3, Nat.add_assoc]

/-- The offset arithmetic does not wrap on a well-formed file. -/
theorem offset_mod (A : AddressOffsetT) (data : List Nat) (wf : well_formed A data)
    (i : Nat) (hi : i ≤ (file_header A data).e_shnum) :
    ((file_header A data).e_shoff + i * section_t.sizeof A) % size_t_mod =
      (file_header A data).e_shoff + i * section_t.sizeof A := by
  have h1 := offset_lt A data wf i hi
  have h2 := wf.length_lt
  apply Nat.mod_eq_of_lt
  simp only [streamoff_limit] at h2
  simp only [size_t_mod]
  omega

/-- On a well-formed file `sections_names_raw` returns the section-name string
table. -/
theorem sections_names_raw_ok (A : AddressOffsetT) (data : List Nat) (wf : well_formed A data)
    (p : Nat) :
    ∃ q, sections_names_raw A ⟨data, p, false⟩ = .ok (names_table A data) ⟨data, q, false⟩ := by
  have hlt := wf.length_lt
  have hidx := wf.shstrndx_lt
  have hoff := offset_lt A data wf _ (Nat.le_of_lt hidx)
  have hin := wf.sections_in _ hidx (Or.inr (Or.inr rfl))
  refine ⟨(file_section A data (file_header A data).e_shstrndx).sh_offset +
      (file_section A data (file_header A data).e_shstrndx).sh_size, ?_⟩
  simp only [sections_names_raw, bind_run, header_ok A data p wf.header_in,
    offset_mod A data wf _ (Nat.le_of_lt hidx)]
  rw [seekg_ok data _ _ (by omega)]
  simp only [read_section_index A data wf _ hidx]
  rw [seekg_ok data _ _ (by omega)]
  simp only [read_ok data _ _ hin]
  rfl

/-- On a well-formed file the loop of `symbols_text`, started at the header of
index `i`, folds `load_section` over the next `n` headers and leaves the get
position behind them. -/
theorem symbols_text_loop_ok (A : AddressOffsetT) (data : List Nat) (wf : well_formed A data) :
    ∀ (n i : Nat) (acc : List symbol_t × List Nat), i + n ≤ (file_header A data).e_shnum →
      symbols_text_loop A n acc
          ⟨data, (file_header A data).e_shoff + i * section_t.sizeof A, false⟩ =
        .ok (((List.range' i n).map (file_section A data)).foldl (load_section A data) acc)
          ⟨data, (file_header A data).e_shoff + (i + n) * section_t.sizeof A, false⟩ := by
  intro n
  induction n with
  | zero => intro i acc _; rfl
  | succ n ih =>
    intro i acc hi
    have hlt := wf.length_lt
    have hpos := offset_lt A data wf (i + 1) (by omega)
    have hnext : i + (n + 1) = i + 1 + n := by omega
    simp only [symbols_text_loop, bind_run, read_section_index A data wf i (by omega),
      List.range'_succ, List.map_cons, List.foldl_cons]
    by_cases h2 : (file_section A data i).sh_type = SHT_SYMTAB_
    · have hin := wf.sections_in i (by omega) (Or.inl h2)
      simp only [h2, if_true, bind_run, tellg_ok]
      rw [seekg_ok data _ _ (by omega)]
      simp only [read_ok data _ _ (show (file_section A data i).sh_offset +
        ((file_section A data i).sh_size - (file_section A data i).sh_size % symbol_t.sizeof A) ≤
          data.length by omega)]
      rw [seekg_ok data _ _ (by omega)]
      simp only [ih (i + 1) _ (by omega), load_section, h2, if_true, hnext]
    · by_cases h3 : (file_section A data i).sh_type = SHT_STRTAB_
      · have hin := wf.sections_in i (by omega) (Or.inr (Or.inl h3))
        have hne : ¬ SHT_STRTAB_ = SHT_SYMTAB_ := by decide
        simp only [h3, hne, if_true, if_false, bind_run, tellg_ok]
        rw [seekg_ok data _ _ (by omega)]
        simp only [read_ok data _ _ hin]
        rw [seekg_ok data _ _ (by omega)]
        simp only [ih (i + 1) _ (by omega), load_section, h3, hne, if_true, if_false, hnext,
          section_bytes]
      · simp only [h2, h3, if_false, ih (i + 1) _ (by omega), load_section, hnext]

/-- On a well-formed file `symbols_text` returns `loaded_tables`. -/
theorem symbols_text_ok (A : AddressOffsetT) (data : List Nat) (wf : well_formed A data)
    (p : Nat) :
    ∃ q, symbols_text A ⟨data, p, false⟩ = .ok (loaded_tables A data) ⟨data, q, false⟩ := by
  have hlt := wf.length_lt
  have hoff := offset_lt A data wf 0 (Nat.zero_le _)
  have h := symbols_text_loop_ok A data wf (file_header A data).e_shnum 0 ([], []) (by omega)
  simp only [Nat.zero_mul, Nat.add_zero, Nat.zero_add] at h hoff
  refine ⟨(file_header A data).e_shoff + (file_header A data).e_shnum * section_t.sizeof A, ?_⟩
  simp only [symbols_text, bind_run, header_ok A data p wf.header_in]
  rw [seekg_ok data _ _ (by omega)]
  simp only [h, loaded_tables]

theorem keeps_header (A : AddressOffsetT) : keeps_file (header A) :=
  keeps_bind (keeps_seekg 0) fun _ => keeps_bind (keeps_read _) fun _ => keeps_pure _

theorem keeps_read_section (A : AddressOffsetT) : keeps_file (read_section A) :=
  keeps_bind (keeps_read _) fun _ => keeps_pure _

theorem keeps_sections_names_raw (A : AddressOffsetT) : keeps_file (sections_names_raw A) :=
  keeps_bind (keeps_header A) fun _ => keeps_bind (keeps_seekg _) fun _ =>
    keeps_bind (keeps_read_section A) fun _ => keeps_bind (keeps_seekg _) fun _ => keeps_read _

theorem keeps_find_section (A : AddressOffsetT) (names : List Nat) (elf : header_t)
    (section_name : List Nat) :
    ∀ n index, keeps_file (find_section A names elf section_name n index) := by
  intro n
  induction n with
  | zero => intro index; exact keeps_pure _
  | succ n ih =>
    intro index
    unfold find_section
    refine keeps_bind (keeps_seekg _) fun _ => keeps_bind (keeps_read_section A) fun _ =>
      keeps_bind (keeps_deref _) fun name => ?_
    split
    · exact keeps_pure _
    · exact ih _

/-- On a stream whose failure bit is clear the result of `symbols_text` does
not depend on the get position. -/
theorem symbols_text_any_pos (A : AddressOffsetT) (data : List Nat) (p q : Nat) :
    symbols_text A ⟨data, p, false⟩ = symbols_text A ⟨data, q, false⟩ := by
  have h0 : (0 : Nat) < streamoff_limit := by decide
  simp only [symbols_text, header, bind_run, seekg_ok data _ 0 h0]

/-- On a stream with the failure bit set `symbols_text` throws at once. -/
theorem symbols_text_failed (A : AddressOffsetT) (data : List Nat) (p : Nat) :
    symbols_text A ⟨data, p, true⟩ = .failure ⟨data, p, true⟩ := by
  simp [symbols_text, header, seekg]

/-- Every name in the result of the loop was there before or is resolved from a
kept record. -/
theorem push_names_mem (keep : symbol_t → Bool) (text : List Nat) :
    ∀ (syms : List symbol_t) (ret l : List (List Nat)), push_names keep text syms ret = some l →
      ∀ n ∈ l, n ∈ ret ∨ ∃ sym ∈ syms, keep sym = true ∧ c_str text sym.st_name = some n := by
  intro syms
  induction syms with
  | nil =>
    intro ret l h n hn
    simp only [push_names, Option.some.injEq] at h
    subst h; exact Or.inl hn
  | cons sym rest ih =>
    intro ret l h n hn
    unfold push_names at h
    by_cases hk : keep sym = true
    · simp only [hk, if_true] at h
      cases hc : c_str text sym.st_name with
      | none => rw [hc] at h; cases h
      | some name =>
        rw [hc] at h
        simp only at h
        by_cases he : name.isEmpty = true
        · simp only [he, if_true] at h
          rcases ih ret l h n hn with h1 | ⟨s, hs, h2⟩
          · exact Or.inl h1
          · exact Or.inr ⟨s, List.mem_cons_of_mem _ hs, h2⟩
        · simp only [he, if_false] at h
          rcases ih _ l h n hn with h1 | ⟨s, hs, h2⟩
          · rcases List.mem_append.mp h1 with h3 | h3
            · exact Or.inl h3
            · simp only [List.mem_singleton] at h3
              subst h3
              exact Or.inr ⟨sym, List.mem_cons_self _ _, hk, hc⟩
          · exact Or.inr ⟨s, List.mem_cons_of_mem _ hs, h2⟩
    · simp only [hk, if_false] at h
      rcases ih ret l h n hn with h1 | ⟨s, hs, h2⟩
      · exact Or.inl h1
      · exact Or.inr ⟨s, List.mem_cons_of_mem _ hs, h2⟩

/-- A stricter condition yields a sublist. -/
theorem push_names_sublist (k1 k2 : symbol_t → Bool) (text : List Nat)
    (hk : ∀ s, k1 s = true → k2 s = true) :
    ∀ (syms : List symbol_t) (r1 r2 l1 l2 : List (List Nat)), r1.Sublist r2 →
      push_names k1 text syms r1 = some l1 → push_names k2 text syms r2 = some l2 →
      l1.Sublist l2 := by
  intro syms
  induction syms with
  | nil =>
    intro r1 r2 l1 l2 hr h1 h2
    simp only [push_names, Option.some.injEq] at h1 h2
    subst h1; subst h2; exact hr
  | cons sym rest ih =>
    intro r1 r2 l1 l2 hr h1 h2
    unfold push_names at h1 h2
    by_cases hk2 : k2 sym = true
    · simp only [hk2, if_true] at h2
      cases hc : c_str text sym.st_name with
      | none => rw [hc] at h2; cases h2
      | some name =>
        rw [hc] at h1 h2
        simp only at h1 h2
        by_cases he : name.isEmpty = true
        · simp only [he, if_true, ite_self] at h1 h2
          exact ih _ _ _ _ hr h1 h2
        · simp only [he, if_false] at h1 h2
          by_cases hk1 : k1 sym = true
          · simp only [hk1, if_true] at h1
            exact ih _ _ _ _ (List.Sublist.append hr (List.Sublist.refl _)) h1 h2
          · simp only [hk1, if_false] at h1
            exact ih _ _ _ _ (hr.trans (List.sublist_append_left _ _)) h1 h2
    · have hk1 : ¬ k1 sym = true := fun h => hk2 (hk _ h)
      simp only [hk2, if_false] at h2
      simp only [hk1, if_false] at h1
      exact ih _ _ _ _ hr h1 h2

/-- When every kept record has a terminated name, the loop appends the
non-empty names of the kept records, in order. -/
theorem push_names_eq (keep : symbol_t → Bool) (text : List Nat) :
    ∀ (syms : List symbol_t) (ret : List (List Nat)),
      (∀ s ∈ syms, keep s = true → c_str text s.st_name = some (string_at text s.st_name)) →
      push_names keep text syms ret =
        some (ret ++ ((syms.filter keep).map fun s => string_at text s.st_name).filter
          fun name => !name.isEmpty) := by
  intro syms
  induction syms with
  | nil => intro ret _; simp [push_names]
  | cons sym rest ih =>
    intro ret h
    have hrest : ∀ s ∈ rest, keep s = true → c_str text s.st_name = some (string_at text s.st_name) :=
      fun s hs => h s (List.mem_cons_of_mem _ hs)
    unfold push_names
    by_cases hk : keep sym = true
    · simp only [hk, if_true, h sym (List.mem_cons_self _ _) hk]
      by_cases he : (string_at text sym.st_name).isEmpty = true
      · simp only [he, if_true, ih ret hrest, List.filter_cons, hk, List.map_cons,
          Bool.not_true, Bool.false_eq_true, if_false]
      · simp only [he, if_false, ih _ hrest, List.filter_cons, hk, if_true, List.map_cons,
          Bool.not_eq_true, Bool.not_false, List.append_assoc, List.singleton_append]
        simp [he]
    · simp only [hk, if_false, ih ret hrest, List.filter_cons, Bool.false_eq_true]

/-- Records that are not kept can be removed from the table beforehand. -/
theorem push_names_filter (keep : symbol_t → Bool) (text : List Nat) :
    ∀ (syms : List symbol_t) (ret : List (List Nat)),
      push_names keep text (syms.filter keep) ret = push_names keep text syms ret := by
  intro syms
  induction syms with
  | nil => intro ret; rfl
  | cons sym rest ih =>
    intro ret
    by_cases hk : keep sym = true
    · simp only [List.filter_cons, hk, if_true, push_names, ih]
    · simp only [List.filter_cons, hk, if_false, push_names, ih, Bool.false_eq_true]

/-- In a table that ends with a NUL every offset inside the table starts a
terminated string. -/
theorem c_str_terminated (table : List Nat) (off : Nat) (hlast : table.getLast? = some 0)
    (hoff : off < table.length) : c_str table off = some (string_at table off) := by
  have hmem : (0 : Nat) ∈ table.drop off := by
    have hne : table.drop off ≠ [] := by
      intro h
      have := congrArg List.length h
      simp only [List.length_drop, List.length_nil] at this
      omega
    have h1 : (table.drop off).getLast? = some 0 := by
      rw [List.getLast?_drop, if_neg (by omega), hlast]
    exact List.mem_of_getLast?_eq_some h1
  simp only [c_str, hmem, if_true, string_at]

/-- The name of every section of a well-formed file is terminated. -/
theorem name_of_section_ok (A : AddressOffsetT) (data : List Nat) (wf : well_formed A data)
    (i : Nat) (hi : i < (file_header A data).e_shnum) :
    c_str (names_table A data) (file_section A data i).sh_name = some (name_of_section A data i) :=
  c_str_terminated _ _ wf.names_terminated (wf.names_in i hi)

/-- The section loop on a well-formed file, started at index `i` with `n`
indices to go: without a match it ends with `i + n`, otherwise with the first
matching index. -/
theorem find_section_ok (A : AddressOffsetT) (data : List Nat) (wf : well_formed A data)
    (name : List Nat) :
    ∀ (n i p : Nat), i + n = (file_header A data).e_shnum →
      ((∀ j, i ≤ j → j < i + n → name_of_section A data j ≠ c_string name) →
        ∃ q, find_section A (names_table A data) (file_header A data) name n i ⟨data, p, false⟩ =
          .ok (i + n) ⟨data, q, false⟩)
      ∧ (∀ k, i ≤ k → k < i + n → name_of_section A data k = c_string name →
          (∀ j, i ≤ j → j < k → name_of_section A data j ≠ c_string name) →
          ∃ q, find_section A (names_table A data) (file_header A data) name n i ⟨data, p, false⟩ =
            .ok k ⟨data, q, false⟩) := by
  intro n
  induction n with
  | zero =>
    intro i p _
    exact ⟨fun _ => ⟨p, rfl⟩, fun k h1 h2 => by omega⟩
  | succ n ih =>
    intro i p hi
    have hlt := wf.length_lt
    have hoff := offset_lt A data wf i (by omega)
    have hrun : find_section A (names_table A data) (file_header A data) name (n + 1) i
          ⟨data, p, false⟩ =
        if name_of_section A data i = c_string name then
          .ok i ⟨data, (file_header A data).e_shoff + (i + 1) * section_t.sizeof A, false⟩
        else find_section A (names_table A data) (file_header A data) name n (i + 1)
          ⟨data, (file_header A data).e_shoff + (i + 1) * section_t.sizeof A, false⟩ := by
      simp only [find_section, bind_run, offset_mod A data wf i (by omega)]
      rw [seekg_ok data _ _ (by omega)]
      simp only [read_section_index A data wf i (by omega), name_of_section_ok A data wf i (by omega),
        StreamM.deref]
      split <;> rfl
    obtain ⟨ih1, ih2⟩ := ih (i + 1)
      ((file_header A data).e_shoff + (i + 1) * section_t.sizeof A) (by omega)
    constructor
    · intro hall
      rw [hrun, if_neg (hall i (Nat.le_refl _) (by omega))]
      obtain ⟨q, hq⟩ := ih1 (fun j h1 h2 => hall j (by omega) (by omega))
      exact ⟨q, by rw [hq]; congr 1; omega⟩
    · intro k hk1 hk2 hname hbefore
      rw [hrun]
      by_cases hik : i = k
      · subst hik
        rw [if_pos hname]
        exact ⟨_, rfl⟩
      · rw [if_neg (hbefore i (Nat.le_refl _) (by omega))]
        exact ih2 k (by omega) (by omega) hname (fun j h1 h2 => hbefore j (by omega) h2)

/-- The name of every kept visible record of a well-formed file is terminated. -/
theorem symbol_name_ok (A : AddressOffsetT) (data : List Nat) (wf : well_formed A data)
    (keep : symbol_t → Bool) (hkeep : ∀ s, keep s = true → is_visible s = true) :
    ∀ s ∈ (loaded_tables A data).1, keep s = true →
      c_str (loaded_tables A data).2 s.st_name = some (string_at (loaded_tables A data).2 s.st_name) := by
  intro s hs hk
  obtain ⟨h1, h2⟩ := wf.symbol_names_in s hs (hkeep s hk)
  exact c_str_terminated _ _ h2 h1

/-- The names `symbols(f, section_name)` returns when the section loop ends
with `index`. -/
theorem symbols_in_index (A : AddressOffsetT) (data : List Nat) (wf : well_formed A data)
    (name : List Nat) (index p : Nat)
    (hfind : ∀ p1, ∃ q, find_section A (names_table A data) (file_header A data) name
        (file_header A data).e_shnum 0 ⟨data, p1, false⟩ = .ok index ⟨data, q, false⟩) :
    ∃ q, symbols_in A name ⟨data, p, false⟩ =
      .ok ((((loaded_tables A data).1.filter fun sym => sym.st_shndx == index && is_visible sym).map
          fun sym => string_at (loaded_tables A data).2 sym.st_name).filter
            fun name => !name.isEmpty) ⟨data, q, false⟩ := by
  obtain ⟨q1, h1⟩ := sections_names_raw_ok A data wf p
  obtain ⟨q2, h2⟩ := hfind (header_t.sizeof A)
  obtain ⟨q3, h3⟩ := symbols_text_ok A data wf q2
  refine ⟨q3, ?_⟩
  simp only [symbols_in, bind_run, h1, header_ok A data q1 wf.header_in, h2, h3]
  rw [push_names_eq _ _ _ _ (symbol_name_ok A data wf _ (fun s hs => by
    simp only [Bool.and_eq_true] at hs; exact hs.2))]
  simp [StreamM.deref]

/-- On a well-formed file `symbols(f)` returns the non-empty names of the
visible records, in table order. -/
theorem symbols_ok (A : AddressOffsetT) (data : List Nat) (wf : well_formed A data) (p : Nat) :
    ∃ q, symbols A ⟨data, p, false⟩ =
      .ok ((((loaded_tables A data).1.filter is_visible).map
          fun sym => string_at (loaded_tables A data).2 sym.st_name).filter
            fun name => !name.isEmpty) ⟨data, q, false⟩ := by
  obtain ⟨q3, h3⟩ := symbols_text_ok A data wf p
  refine ⟨q3, ?_⟩
  simp only [symbols, bind_run, h3]
  rw [push_names_eq _ _ _ _ (symbol_name_ok A data wf _ (fun s hs => hs))]
  simp [StreamM.deref]

/-- A conjunction filters like its second part exactly when the first part
holds wherever the second does. -/
theorem filter_and_eq_iff {α : Type} (p q : α → Bool) (l : List α) :
    l.filter (fun x => p x && q x) = l.filter q ↔ ∀ x ∈ l, q x = true → p x = true := by
  induction l with
  | nil => simp
  | cons a l ih =>
    by_cases hq : q a = true
    · by_cases hp : p a = true
      · simp [List.filter_cons, hq, hp, ih]
      · simp only [List.filter_cons, hq, hp, Bool.and_true, Bool.false_eq_true, if_false, if_true,
          List.mem_cons, forall_eq_or_imp, true_implies, false_and, iff_false]
        intro h
        have h1 : (l.filter fun x => p x && q x).length ≤ l.length := List.length_filter_le _ _
        have h2 := congrArg List.length h
        have h3 : (l.filter q).length ≤ l.length := List.length_filter_le _ _
        have h4 : (l.filter fun x => p x && q x).length ≤ (l.filter q).length := by
          apply List.Sublist.length_le
          apply List.monotone_filter_right
          intro x hx
          simp only [Bool.and_eq_true] at hx
          exact hx.2
        simp only [List.length_cons] at h2
        omega
    · simp [List.filter_cons, hq, ih]

/-- The string that starts right after `pre` in a packed table. -/
theorem c_str_packed (pre name rest : List Nat) (h0 : (0 : Nat) ∉ name) :
    c_str (pre ++ (name ++ [0] ++ rest)) pre.length = some name := by
  have hd : (pre ++ (name ++ [0] ++ rest)).drop pre.length = name ++ 0 :: rest := by
    simp
  have hmem : (0 : Nat) ∈ name ++ 0 :: rest := by simp
  have htw : ∀ l : List Nat, (0 : Nat) ∉ l →
      (l ++ 0 :: rest).takeWhile (fun x => decide (x ≠ 0)) = l := by
    intro l
    induction l with
    | nil => intro _; simp
    | cons a l ih =>
      intro hl
      have ha : a ≠ 0 := fun h => hl (by simp [h])
      have h1 : (0 : Nat) ∉ l := fun h => hl (List.mem_cons_of_mem _ h)
      have := ih h1
      simp only [List.cons_append, List.takeWhile_cons, ha, ne_eq, not_false_eq_true,
        decide_True, if_true, this]
  simp only [c_str, hd, hmem, if_true, htw name h0]

/-- The splitting loop on a table of packed names returns these names. -/
theorem sections_loop_packed :
    ∀ (names : List (List Nat)), names ≠ [] → (∀ name ∈ names, (0 : Nat) ∉ name) →
      ∀ (pre : List Nat) (ret : List (List Nat)) (fuel : Nat), names.length ≤ fuel →
        sections_loop (pre ++ packed names) fuel pre.length ret = some (ret ++ names) := by
  intro names
  induction names with
  | nil => intro h; exact absurd rfl h
  | cons name rest ih =>
    intro _ h0 pre ret fuel hfuel
    cases fuel with
    | zero => simp at hfuel
    | succ fuel =>
      have hc : c_str (pre ++ packed (name :: rest)) pre.length = some name := by
        have := c_str_packed pre name (packed rest) (h0 name (List.mem_cons_self _ _))
        simpa [packed] using this
      simp only [sections_loop, hc]
      cases rest with
      | nil =>
        have hlen : pre.length + (name.length + 1) = (pre ++ packed [name]).length := by
          simp [packed]
        simp [hlen]
      | cons name1 rest1 =>
        have hlen : pre.length + (name.length + 1) ≠ (pre ++ packed (name :: name1 :: rest1)).length := by
          simp [packed]
        have hpre : pre ++ packed (name :: name1 :: rest1) =
            (pre ++ (name ++ [0])) ++ packed (name1 :: rest1) := by
          simp [packed]
        have hplen : pre.length + (name.length + 1) = (pre ++ (name ++ [0])).length := by simp
        rw [if_pos hlen, hpre, hplen,
          ih (by simp) (fun n hn => h0 n (List.mem_cons_of_mem _ hn)) _ _ fuel
            (by simp only [List.length_cons] at hfuel ⊢; omega)]
        simp only [List.append_assoc, List.singleton_append]

/-- A packed table has at least one byte per name. -/
theorem packed_length_ge (names : List (List Nat)) : names.length ≤ (packed names).length := by
  induction names with
  | nil => simp [packed]
  | cons name rest ih =>
    simp only [packed, List.map_cons, List.flatten_cons, List.length_append, List.length_cons,
      List.length_nil] at ih ⊢
    omega

/-- A decoded string holds no NUL. -/
theorem string_at_no_nul (table : List Nat) (off : Nat) : (0 : Nat) ∉ string_at table off := by
  intro h
  have := List.mem_takeWhile_imp h
  simp at this

/-- On a well-formed file `symbols(f, section_name)` returns for every section
name: the names of the named visible records whose `st_shndx` is the index the
section loop ends with. -/
theorem symbols_in_returns (A : AddressOffsetT) (data : List Nat) (wf : well_formed A data)
    (name : List Nat) (p : Nat) :
    ∃ index q, symbols_in A name ⟨data, p, false⟩ =
      .ok ((((loaded_tables A data).1.filter fun sym => sym.st_shndx == index && is_visible sym).map
          fun sym => string_at (loaded_tables A data).2 sym.st_name).filter
            fun name => !name.isEmpty) ⟨data, q, false⟩ := by
  classical
  by_cases hmatch : ∃ i, i < (file_header A data).e_shnum ∧
      name_of_section A data i = c_string name
  · have hk := Nat.find_spec hmatch
    have hmin := fun j (hj : j < Nat.find hmatch) => Nat.find_min hmatch hj
    have hfind : ∀ p1, ∃ q, find_section A (names_table A data) (file_header A data) name
        (file_header A data).e_shnum 0 ⟨data, p1, false⟩ = .ok (Nat.find hmatch) ⟨data, q, false⟩ := by
      intro p1
      exact (find_section_ok A data wf name _ 0 p1 (by omega)).2 _ (Nat.zero_le _)
        (by omega) hk.2 (fun j _ hj hname => hmin j hj ⟨by omega, hname⟩)
    exact ⟨_, symbols_in_index A data wf name _ p hfind⟩
  · have hfind : ∀ p1, ∃ q, find_section A (names_table A data) (file_header A data) name
        (file_header A data).e_shnum 0 ⟨data, p1, false⟩ =
          .ok (file_header A data).e_shnum ⟨data, q, false⟩ := by
      intro p1
      have h := (find_section_ok A data wf name (file_header A data).e_shnum 0 p1
        (by omega)).1 (fun j _ hj hname => hmatch ⟨j, by omega, hname⟩)
      simpa using h
    exact ⟨_, symbols_in_index A data wf name _ p hfind⟩

/-- Sections that are no symbol table leave the symbol records alone. -/
theorem fold_keeps_symbols (A : AddressOffsetT) (data : List Nat) :
    ∀ (cnt i : Nat) (acc : List symbol_t × List Nat),
      (∀ j, i ≤ j → j < i + cnt → (file_section A data j).sh_type ≠ SHT_SYMTAB_) →
      (((List.range' i cnt).map (file_section A data)).foldl (load_section A data) acc).1 = acc.1 := by
  intro cnt
  induction cnt with
  | zero => intro i acc _; rfl
  | succ cnt ih =>
    intro i acc h
    simp only [List.range'_succ, List.map_cons, List.foldl_cons]
    rw [ih (i + 1) _ (fun j h1 h2 => h j (by omega) (by omega))]
    have hi := h i (Nat.le_refl _) (by omega)
    unfold load_section
    rw [if_neg hi]
    split <;> rfl

/-- Sections that are no string table leave the text alone. -/
theorem fold_keeps_text (A : AddressOffsetT) (data : List Nat) :
    ∀ (cnt i : Nat) (acc : List symbol_t × List Nat),
      (∀ j, i ≤ j → j < i + cnt → (file_section A data j).sh_type ≠ SHT_STRTAB_) →
      (((List.range' i cnt).map (file_section A data)).foldl (load_section A data) acc).2 = acc.2 := by
  intro cnt
  induction cnt with
  | zero => intro i acc _; rfl
  | succ cnt ih =>
    intro i acc h
    simp only [List.range'_succ, List.map_cons, List.foldl_cons]
    rw [ih (i + 1) _ (fun j h1 h2 => h j (by omega) (by omega))]
    have hi := h i (Nat.le_refl _) (by omega)
    unfold load_section
    rw [if_neg hi]
    split <;> rfl

/-- The scan ends with the records of the last symbol table it meets. -/
theorem fold_last_symtab (A : AddressOffsetT) (data : List Nat) :
    ∀ (cnt i : Nat) (acc : List symbol_t × List Nat) (k : Nat), i ≤ k → k < i + cnt →
      (file_section A data k).sh_type = SHT_SYMTAB_ →
      (∀ j, k < j → j < i + cnt → (file_section A data j).sh_type ≠ SHT_SYMTAB_) →
      (((List.range' i cnt).map (file_section A data)).foldl (load_section A data) acc).1 =
        symtab_records A data k := by
  intro cnt
  induction cnt with
  | zero => intro i acc k h1 h2; omega
  | succ cnt ih =>
    intro i acc k h1 h2 hty hlast
    simp only [List.range'_succ, List.map_cons, List.foldl_cons]
    by_cases hik : i = k
    · subst hik
      rw [fold_keeps_symbols A data cnt (i + 1) _ (fun j h3 h4 => hlast j (by omega) (by omega))]
      simp only [load_section, hty, if_true, symtab_records]
    · exact ih (i + 1) _ k (by omega) (by omega) hty (fun j h3 h4 => hlast j h3 (by omega))

/-- The scan ends with the bytes of the last string table it meets. -/
theorem fold_last_strtab (A : AddressOffsetT) (data : List Nat) :
    ∀ (cnt i : Nat) (acc : List symbol_t × List Nat) (k : Nat), i ≤ k → k < i + cnt →
      (file_section A data k).sh_type = SHT_STRTAB_ →
      (∀ j, k < j → j < i + cnt → (file_section A data j).sh_type ≠ SHT_STRTAB_) →
      (((List.range' i cnt).map (file_section A data)).foldl (load_section A data) acc).2 =
        section_bytes data (file_section A data k) := by
  intro cnt
  induction cnt with
  | zero => intro i acc k h1 h2; omega
  | succ cnt ih =>
    intro i acc k h1 h2 hty hlast
    simp only [List.range'_succ, List.map_cons, List.foldl_cons]
    by_cases hik : i = k
    · subst hik
      rw [fold_keeps_text A data cnt (i + 1) _ (fun j h3 h4 => hlast j (by omega) (by omega))]
      have hne : ¬ SHT_STRTAB_ = SHT_SYMTAB_ := by decide
      simp only [load_section, hty, hne, if_true, if_false]
    · exact ih (i + 1) _ k (by omega) (by omega) hty (fun j h3 h4 => hlast j h3 (by omega))

/-- The symbol records of a file are those of its last symbol table section. -/
theorem loaded_symbols_last (A : AddressOffsetT) (data : List Nat) (k : Nat)
    (h : last_of_type A data SHT_SYMTAB_ k) : (loaded_tables A data).1 = symtab_records A data k :=
  fold_last_symtab A data _ 0 _ k (Nat.zero_le _) (by have := h.1; omega) h.2.1
    (fun j h1 h2 => h.2.2 j (by omega) h1)

/-- The string table of a file is its last string table section. -/
theorem loaded_text_last (A : AddressOffsetT) (data : List Nat) (k : Nat)
    (h : last_of_type A data SHT_STRTAB_ k) :
    (loaded_tables A data).2 = section_bytes data (file_section A data k) :=
  fold_last_strtab A data _ 0 _ k (Nat.zero_le _) (by have := h.1; omega) h.2.1
    (fun j h1 h2 => h.2.2 j (by omega) h1)

/-- Without a symbol table section there are no symbol records. -/
theorem loaded_symbols_none (A : AddressOffsetT) (data : List Nat)
    (h : none_of_type A data SHT_SYMTAB_) : (loaded_tables A data).1 = [] :=
  fold_keeps_symbols A data _ 0 _ (fun j _ h2 => h j (by omega))

/-- Without a string table section the text is empty. -/
theorem loaded_text_none (A : AddressOffsetT) (data : List Nat)
    (h : none_of_type A data SHT_STRTAB_) : (loaded_tables A data).2 = [] :=
  fold_keeps_text A data _ 0 _ (fun j _ h2 => h j (by omega))

/-- The number of records decoded from a table. -/
theorem decode_all_length (A : AddressOffsetT) (count : Nat) (raw : List Nat) :
    (symbol_t.decode_all A count raw).length = count := by
  simp [symbol_t.decode_all]

/-- A section header that does not lie inside the file makes its read throw. -/
theorem read_section_fail (A : AddressOffsetT) (data : List Nat) (p : Nat)
    (h : ¬ p + section_t.sizeof A ≤ data.length) :
    ∃ f1, read_section A ⟨data, p, false⟩ = .failure f1 := by
  have hr : ¬ readable data p (section_t.sizeof A) := by
    intro hr
    rcases hr with hr | hr
    · simp [section_t.sizeof] at hr
    · exact h hr
  obtain ⟨f1, h1⟩ := read_not_readable data p _ hr
  exact ⟨f1, by simp only [read_section, bind_run, h1]⟩

/-- The load of one table of the scan: seek to the table, read `n` bytes, seek
back.  It goes through when the offset fits `std::streamoff`, the bytes are in
the file and the position to return to fits as well. -/
theorem load_table (data : List Nat) (p off n : Nat) {α : Type}
    (k : List Nat → StreamM α)
    (h : off < streamoff_limit ∧ readable data off n ∧ p < streamoff_limit) :
    (do let pos ← tellg; seekg off; let raw ← std.read n; seekg pos; k raw : StreamM α)
        ⟨data, p, false⟩ = k ((data.drop off).take n) ⟨data, p, false⟩ := by
  simp only [bind_run, tellg_ok, seekg_ok data p off h.1, read_readable data off n h.2.1,
    seekg_ok data (off + n) p h.2.2]

/-- The load of one table throws when one of its three conditions fails. -/
theorem load_table_fail (data : List Nat) (p off n : Nat) {α : Type}
    (k : List Nat → StreamM α)
    (h : ¬ (off < streamoff_limit ∧ readable data off n ∧ p < streamoff_limit)) :
    ∃ f1, (do let pos ← tellg; seekg off; let raw ← std.read n; seekg pos; k raw : StreamM α)
        ⟨data, p, false⟩ = .failure f1 := by
  by_cases h1 : off < streamoff_limit
  · by_cases h2 : readable data off n
    · have h3 : ¬ p < streamoff_limit := fun h3 => h ⟨h1, h2, h3⟩
      exact ⟨⟨data, off + n, true⟩, by simp only [bind_run, tellg_ok, seekg_ok data p off h1,
        read_readable data off n h2, seekg_fail data (off + n) p h3]⟩
    · obtain ⟨f1, hf⟩ := read_not_readable data off n h2
      exact ⟨f1, by simp only [bind_run, tellg_ok, seekg_ok data p off h1, hf]⟩
  · exact ⟨⟨data, p, true⟩, by simp only [bind_run, tellg_ok, seekg_fail data p off h1]⟩

/-- One round of the scan at a header that lies in the file: the header read is
the section header of index `i`. -/
theorem symbols_text_loop_succ (A : AddressOffsetT) (data : List Nat) (n i : Nat)
    (acc : List symbol_t × List Nat)
    (h : (file_header A data).e_shoff + (i + 1) * section_t.sizeof A ≤ data.length) :
    symbols_text_loop A (n + 1) acc
        ⟨data, (file_header A data).e_shoff + i * section_t.sizeof A, false⟩ =
      (if (file_section A data i).sh_type = SHT_SYMTAB_ then do
        let pos ← tellg
        seekg (file_section A data i).sh_offset
        let raw ← std.read ((file_section A data i).sh_size -
          (file_section A data i).sh_size % symbol_t.sizeof A)
        seekg pos
        symbols_text_loop A n
          (symbol_t.decode_all A ((file_section A data i).sh_size / symbol_t.sizeof A) raw, acc.2)
      else if (file_section A data i).sh_type = SHT_STRTAB_ then do
        let pos ← tellg
        seekg (file_section A data i).sh_offset
        let raw ← std.read (file_section A data i).sh_size
        seekg pos
        symbols_text_loop A n (acc.1, raw)
      else symbols_text_loop A n acc : StreamM (List symbol_t × List Nat))
        ⟨data, (file_header A data).e_shoff + (i + 1) * section_t.sizeof A, false⟩ := by
  have h3 : (i + 1) * section_t.sizeof A = i * section_t.sizeof A + section_t.sizeof A := by ring
  have hr := read_section_ok A data ((file_header A data).e_shoff + i * section_t.sizeof A)
    (by omega)
  rw [h3, ← Nat.add_assoc]
  conv_lhs => unfold symbols_text_loop
  simp only [bind_run, hr]
  rfl

/-- When the scan of `cnt` headers from index `i` returns, the get position is
behind the last header read, the result is the fold of `load_section` over the
headers, and everything the scan reads was in the file. -/
theorem symbols_text_loop_returns (A : AddressOffsetT) (data : List Nat) :
    ∀ (cnt i : Nat) (acc r : List symbol_t × List Nat) (f1 : ifstream),
      symbols_text_loop A cnt acc
          ⟨data, (file_header A data).e_shoff + i * section_t.sizeof A, false⟩ = .ok r f1 →
      f1 = ⟨data, (file_header A data).e_shoff + (i + cnt) * section_t.sizeof A, false⟩ ∧
      r = ((List.range' i cnt).map (file_section A data)).foldl (load_section A data) acc ∧
      ∀ j, i ≤ j → j < i + cnt → scan_reads A data j := by
  intro cnt
  induction cnt with
  | zero =>
    intro i acc r f1 h
    cases h
    exact ⟨rfl, rfl, fun j h1 h2 => by omega⟩
  | succ cnt ih =>
    intro i acc r f1 h
    have hnext : i + (cnt + 1) = i + 1 + cnt := by omega
    by_cases hin : (file_header A data).e_shoff + (i + 1) * section_t.sizeof A ≤ data.length
    · rw [symbols_text_loop_succ A data cnt i acc hin] at h
      simp only [List.range'_succ, List.map_cons, List.foldl_cons, hnext]
      by_cases h2 : (file_section A data i).sh_type = SHT_SYMTAB_
      · simp only [h2, if_true] at h
        by_cases hc : (file_section A data i).sh_offset < streamoff_limit ∧
            readable data (file_section A data i).sh_offset ((file_section A data i).sh_size -
              (file_section A data i).sh_size % symbol_t.sizeof A) ∧
            (file_header A data).e_shoff + (i + 1) * section_t.sizeof A < streamoff_limit
        · rw [load_table data _ _ _ _ hc] at h
          obtain ⟨e1, e2, e3⟩ := ih (i + 1) _ r f1 h
          refine ⟨e1, ?_, ?_⟩
          · rw [e2]; simp only [load_section, h2, if_true]
          · intro j hj1 hj2
            by_cases hji : j = i
            · subst hji
              have hne : ¬ SHT_SYMTAB_ = SHT_STRTAB_ := by decide
              exact ⟨hin, fun _ => hc.2.1, fun h3 => absurd (h2.symm.trans h3) hne⟩
            · exact e3 j (by omega) (by omega)
        · obtain ⟨f2, hf⟩ := load_table_fail data _ _ _ (fun raw => symbols_text_loop A cnt
            (symbol_t.decode_all A ((file_section A data i).sh_size / symbol_t.sizeof A) raw,
              acc.2)) hc
          rw [hf] at h; cases h
      · by_cases h3 : (file_section A data i).sh_type = SHT_STRTAB_
        · have hne : ¬ SHT_STRTAB_ = SHT_SYMTAB_ := by decide
          simp only [h3, hne, if_true, if_false] at h
          by_cases hc : (file_section A data i).sh_offset < streamoff_limit ∧
              readable data (file_section A data i).sh_offset (file_section A data i).sh_size ∧
              (file_header A data).e_shoff + (i + 1) * section_t.sizeof A < streamoff_limit
          · rw [load_table data _ _ _ _ hc] at h
            obtain ⟨e1, e2, e3⟩ := ih (i + 1) _ r f1 h
            refine ⟨e1, ?_, ?_⟩
            · rw [e2]; simp only [load_section, h3, hne, if_true, if_false, section_bytes]
            · intro j hj1 hj2
              by_cases hji : j = i
              · subst hji
                exact ⟨hin, fun h4 => absurd h4 h2, fun _ => hc.2.1⟩
              · exact e3 j (by omega) (by omega)
          · obtain ⟨f2, hf⟩ := load_table_fail data _ _ _ (fun raw => symbols_text_loop A cnt
              (acc.1, raw)) hc
            rw [hf] at h; cases h
        · simp only [h2, h3, if_false] at h
          obtain ⟨e1, e2, e3⟩ := ih (i + 1) _ r f1 h
          refine ⟨e1, ?_, ?_⟩
          · rw [e2]; simp only [load_section, h2, h3, if_false]
          · intro j hj1 hj2
            by_cases hji : j = i
            · subst hji
              exact ⟨hin, fun h4 => absurd h4 h2, fun h4 => absurd h4 h3⟩
            · exact e3 j (by omega) (by omega)
    · obtain ⟨f2, hf⟩ := read_section_fail A data
        ((file_header A data).e_shoff + i * section_t.sizeof A) (by
          have h3 : (i + 1) * section_t.sizeof A = i * section_t.sizeof A + section_t.sizeof A := by
            ring
          omega)
      unfold symbols_text_loop at h
      simp only [bind_run, hf] at h
      cases h

theorem bounds_header (A : AddressOffsetT) : stays_in_bounds (header A) :=
  bounds_bind (bounds_seekg 0) fun _ => bounds_bind (bounds_read _) fun _ => bounds_pure _

theorem bounds_read_section (A : AddressOffsetT) : stays_in_bounds (read_section A) :=
  bounds_bind (bounds_read _) fun _ => bounds_pure _

theorem bounds_sections_names_raw (A : AddressOffsetT) : stays_in_bounds (sections_names_raw A) :=
  bounds_bind (bounds_header A) fun _ => bounds_bind (bounds_seekg _) fun _ =>
    bounds_bind (bounds_read_section A) fun _ => bounds_bind (bounds_seekg _) fun _ => bounds_read _

theorem bounds_symbols_text_loop (A : AddressOffsetT) :
    ∀ (n : Nat) (acc : List symbol_t × List Nat), stays_in_bounds (symbols_text_loop A n acc) := by
  intro n
  induction n with
  | zero => intro acc; exact bounds_pure _
  | succ n ih =>
    intro acc
    unfold symbols_text_loop
    refine bounds_bind (bounds_read_section A) fun s => ?_
    split
    · exact bounds_bind bounds_tellg fun _ => bounds_bind (bounds_seekg _) fun _ =>
        bounds_bind (bounds_read _) fun _ => bounds_bind (bounds_seekg _) fun _ => ih _
    · split
      · exact bounds_bind bounds_tellg fun _ => bounds_bind (bounds_seekg _) fun _ =>
          bounds_bind (bounds_read _) fun _ => bounds_bind (bounds_seekg _) fun _ => ih _
      · exact ih _

/-- The scan of the section header table reads no memory outside a buffer. -/
theorem bounds_symbols_text (A : AddressOffsetT) : stays_in_bounds (symbols_text A) :=
  bounds_bind (bounds_header A) fun _ => bounds_bind (bounds_seekg _) fun _ =>
    bounds_symbols_text_loop A _ _

/-- A header that does not lie inside the file makes `header` throw. -/
theorem header_fail (A : AddressOffsetT) (data : List Nat) (p : Nat)
    (h : ¬ header_t.sizeof A ≤ data.length) :
    ∃ f1, header A ⟨data, p, false⟩ = .failure f1 := by
  have hr : ¬ readable data 0 (header_t.sizeof A) := by
    intro hr
    rcases hr with hr | hr
    · simp [header_t.sizeof] at hr
    · exact h (by omega)
  obtain ⟨f1, h1⟩ := read_not_readable data 0 _ hr
  have h0 : (0 : Nat) < streamoff_limit := by decide
  exact ⟨f1, by simp only [header, bind_run, seekg_ok data p 0 h0, h1]⟩

/-- When `symbols_text` returns, the header and everything the scan reads was
in the file, the result is `loaded_tables` and the get position is behind the
section header table. -/
theorem symbols_text_returns (A : AddressOffsetT) (data : List Nat) (p : Nat)
    (r : List symbol_t × List Nat) (f1 : ifstream)
    (h : symbols_text A ⟨data, p, false⟩ = .ok r f1) :
    header_t.sizeof A ≤ data.length ∧
    f1 = ⟨data, (file_header A data).e_shoff +
      (file_header A data).e_shnum * section_t.sizeof A, false⟩ ∧
    r = loaded_tables A data ∧
    ∀ j, j < (file_header A data).e_shnum → scan_reads A data j := by
  by_cases hh : header_t.sizeof A ≤ data.length
  · simp only [symbols_text, bind_run, header_ok A data p hh] at h
    by_cases hs : (file_header A data).e_shoff < streamoff_limit
    · rw [seekg_ok data _ _ hs] at h
      simp only at h
      have h1 := symbols_text_loop_returns A data (file_header A data).e_shnum 0 _ r f1
        (by simpa using h)
      simp only [Nat.zero_add] at h1
      exact ⟨hh, h1.1, h1.2.1, fun j hj => h1.2.2 j (Nat.zero_le _) hj⟩
    · rw [seekg_fail data _ _ hs] at h
      cases h
  · obtain ⟨f2, hf⟩ := header_fail A data p hh
    simp only [symbols_text, bind_run, hf] at h
    cases h

/-- The value of `sh_size - sh_size % sizeof(symbol_t)`. -/
theorem whole_records_size (s r : Nat) : s - s % r = r * (s / r) := by
  have := Nat.div_add_mod s r
  omega

/-- Record `j` of a symbol table is decoded from the bytes of record `j`. -/
theorem symtab_records_get (A : AddressOffsetT) (data : List Nat) (k j : Nat)
    (hj : j < (file_section A data k).sh_size / symbol_t.sizeof A) :
    (symtab_records A data k)[j]? = some (symbol_t.decode A
      ((data.drop ((file_section A data k).sh_offset + j * symbol_t.sizeof A)).take
        (symbol_t.sizeof A))) := by
  have hr : (j + 1) * symbol_t.sizeof A ≤
      symbol_t.sizeof A * ((file_section A data k).sh_size / symbol_t.sizeof A) := by
    rw [Nat.mul_comm]; exact Nat.mul_le_mul_left _ hj
  have h3 : (j + 1) * symbol_t.sizeof A = j * symbol_t.sizeof A + symbol_t.sizeof A := by ring
  simp only [symtab_records, symbol_t.decode_all, whole_records_size]
  rw [List.getElem?_map, List.getElem?_range hj]
  simp only [Option.map_some', List.drop_take, List.take_take, List.drop_drop]
  rw [Nat.min_eq_left (by omega)]

/-- Bytes below the cut are the same in the truncated file. -/
theorem take_drop_take (data : List Nat) (n p m : Nat) (h : p + m ≤ n) :
    ((data.take n).drop p).take m = (data.drop p).take m := by
  rw [List.drop_take, List.take_take, Nat.min_eq_left (by omega)]

/-- A cut behind the header leaves the header as it is. -/
theorem file_header_take (A : AddressOffsetT) (data : List Nat) (n : Nat)
    (h : header_t.sizeof A ≤ n) : file_header A (data.take n) = file_header A data := by
  simp only [file_header, List.take_take, Nat.min_eq_left h]

/-- A cut behind a section header leaves the section header as it is. -/
theorem file_section_take (A : AddressOffsetT) (data : List Nat) (n j : Nat)
    (hh : header_t.sizeof A ≤ n)
    (h : (file_header A data).e_shoff + (j + 1) * section_t.sizeof A ≤ n) :
    file_section A (data.take n) j = file_section A data j := by
  have h3 : (j + 1) * section_t.sizeof A = j * section_t.sizeof A + section_t.sizeof A := by ring
  simp only [file_section, file_header_take A data n hh]
  rw [take_drop_take data n _ _ (by omega)]

/-- In a truncated file nothing is readable beyond the cut. -/
theorem readable_take (data : List Nat) (n p m : Nat) (h : readable (data.take n) p m)
    (hm : 0 < m) : p + m ≤ n := by
  rcases h with h | h
  · omega
  · rw [List.length_take] at h
    omega

/-- A truncated file makes `symbols` throw when the cut falls inside something
the scan reads. -/
theorem symbols_truncated (A : AddressOffsetT) (data : List Nat) (wf : well_formed A data)
    (n p : Nat)
    (h : n < header_t.sizeof A ∨
      n < (file_header A data).e_shoff + (file_header A data).e_shnum * section_t.sizeof A ∨
      ∃ j, j < (file_header A data).e_shnum ∧
        (((file_section A data j).sh_type = SHT_SYMTAB_ ∧
            0 < (file_section A data j).sh_size -
              (file_section A data j).sh_size % symbol_t.sizeof A ∧
            n < (file_section A data j).sh_offset + ((file_section A data j).sh_size -
              (file_section A data j).sh_size % symbol_t.sizeof A)) ∨
          ((file_section A data j).sh_type = SHT_STRTAB_ ∧ 0 < (file_section A data j).sh_size ∧
            n < (file_section A data j).sh_offset + (file_section A data j).sh_size))) :
    ∃ f1, symbols A ⟨data.take n, p, false⟩ = .failure f1 := by
  cases hst : symbols_text A ⟨data.take n, p, false⟩ with
  | undefined => exact absurd hst (bounds_symbols_text A _)
  | failure f1 => exact ⟨f1, by simp only [symbols, bind_run, hst]⟩
  | ok r f1 =>
    exfalso
    obtain ⟨hh, _, _, hscan⟩ := symbols_text_returns A (data.take n) p r f1 hst
    have hlen : (data.take n).length ≤ n := by rw [List.length_take]; omega
    have hhn : header_t.sizeof A ≤ n := by omega
    rw [file_header_take A data n hhn] at hscan
    have hpos := wf.shstrndx_lt
    have hsec : ∀ j, j < (file_header A data).e_shnum →
        (file_header A data).e_shoff + (j + 1) * section_t.sizeof A ≤ n := by
      intro j hj
      have := (hscan j hj).1
      rw [file_header_take A data n hhn] at this
      omega
    rcases h with h | h | ⟨j, hj, h⟩
    · omega
    · have := hsec ((file_header A data).e_shnum - 1) (by omega)
      have e : (file_header A data).e_shnum - 1 + 1 = (file_header A data).e_shnum := by omega
      rw [e] at this
      omega
    · have hr := hscan j hj
      unfold scan_reads at hr
      rw [file_section_take A data n j hhn (hsec j hj)] at hr
      rcases h with ⟨hty, hpos1, hcut⟩ | ⟨hty, hpos1, hcut⟩
      · have := readable_take data n _ _ (hr.2.1 hty) hpos1
        omega
      · have := readable_take data n _ _ (hr.2.2 hty) hpos1
        omega

/-- A truncated file makes `sections` throw when the cut falls inside the
header, the header of the section-name string table or that table. -/
theorem sections_truncated (A : AddressOffsetT) (data : List Nat) (wf : well_formed A data)
    (n p : Nat)
    (h : n < header_t.sizeof A ∨
      n < (file_header A data).e_shoff +
        ((file_header A data).e_shstrndx + 1) * section_t.sizeof A ∨
      n < (file_section A data (file_header A data).e_shstrndx).sh_offset +
        (file_section A data (file_header A data).e_shstrndx).sh_size) :
    ∃ f1, sections A ⟨data.take n, p, false⟩ = .failure f1 := by
  have hlen : (data.take n).length ≤ n := by rw [List.length_take]; omega
  have hlt := wf.length_lt
  have hidx := wf.shstrndx_lt
  by_cases h1 : header_t.sizeof A ≤ (data.take n).length
  · have hhn : header_t.sizeof A ≤ n := by omega
    have hoff := offset_lt A data wf _ (Nat.le_of_lt hidx)
    have hin := wf.sections_in _ hidx (Or.inr (Or.inr rfl))
    have h3 : ((file_header A data).e_shstrndx + 1) * section_t.sizeof A =
        (file_header A data).e_shstrndx * section_t.sizeof A + section_t.sizeof A := by ring
    by_cases h2 : (file_header A data).e_shoff +
        (file_header A data).e_shstrndx * section_t.sizeof A + section_t.sizeof A ≤
          (data.take n).length
    · have hsec := file_section_take A data n (file_header A data).e_shstrndx hhn (by omega)
      have hsec1 : section_t.decode A ((List.drop ((file_header A data).e_shoff +
          (file_header A data).e_shstrndx * section_t.sizeof A) (data.take n)).take
            (section_t.sizeof A)) = file_section A data (file_header A data).e_shstrndx := by
        rw [← hsec]
        simp only [file_section, file_header_take A data n hhn]
      by_cases h4 : readable (data.take n)
          (file_section A data (file_header A data).e_shstrndx).sh_offset
          (file_section A data (file_header A data).e_shstrndx).sh_size
      · exfalso
        have hne : 0 < (file_section A data (file_header A data).e_shstrndx).sh_size := by
          have hnt := wf.names_terminated
          unfold names_table section_bytes at hnt
          by_contra hz
          have hz0 : (file_section A data (file_header A data).e_shstrndx).sh_size = 0 := by omega
          rw [hz0] at hnt
          simp at hnt
        have := readable_take data n _ _ h4 hne
        omega
      · obtain ⟨f1, hf⟩ := read_not_readable _ _ _ h4
        refine ⟨f1, ?_⟩
        simp only [sections, sections_names_raw, bind_run, header_ok A (data.take n) p h1,
          file_header_take A data n hhn, offset_mod A data wf _ (Nat.le_of_lt hidx)]
        rw [seekg_ok (data.take n) _ _ (by omega)]
        simp only [read_section_ok A (data.take n) _ h2, hsec1]
        rw [seekg_ok (data.take n) _ _ (by omega)]
        simp only [hf]
    · obtain ⟨f1, hf⟩ := read_section_fail A (data.take n) _ h2
      refine ⟨f1, ?_⟩
      simp only [sections, sections_names_raw, bind_run, header_ok A (data.take n) p h1,
        file_header_take A data n hhn, offset_mod A data wf _ (Nat.le_of_lt hidx)]
      rw [seekg_ok (data.take n) _ _ (by omega)]
      simp only [hf]
  · obtain ⟨f1, hf⟩ := header_fail A (data.take n) p h1
    exact ⟨f1, by simp only [sections, sections_names_raw, bind_run, hf]⟩

theorem keeps_symbols_text_loop (A : AddressOffsetT) :
    ∀ (n : Nat) (acc : List symbol_t × List Nat), keeps_file (symbols_text_loop A n acc) := by
  intro n
  induction n with
  | zero => intro acc; exact keeps_pure _
  | succ n ih =>
    intro acc
    unfold symbols_text_loop
    refine keeps_bind (keeps_read_section A) fun s => ?_
    split
    · exact keeps_bind keeps_tellg fun _ => keeps_bind (keeps_seekg _) fun _ =>
        keeps_bind (keeps_read _) fun _ => keeps_bind (keeps_seekg _) fun _ => ih _
    · split
      · exact keeps_bind keeps_tellg fun _ => keeps_bind (keeps_seekg _) fun _ =>
          keeps_bind (keeps_read _) fun _ => keeps_bind (keeps_seekg _) fun _ => ih _
      · exact ih _

theorem keeps_symbols_text (A : AddressOffsetT) : keeps_file (symbols_text A) :=
  keeps_bind (keeps_header A) fun _ => keeps_bind (keeps_seekg _) fun _ =>
    keeps_symbols_text_loop A _ _

theorem keeps_sections (A : AddressOffsetT) : keeps_file (sections A) :=
  keeps_bind (keeps_sections_names_raw A) fun _ => keeps_bind (keeps_header A) fun _ =>
    keeps_deref _

theorem keeps_symbols (A : AddressOffsetT) : keeps_file (symbols A) :=
  keeps_bind (keeps_symbols_text A) fun _ => keeps_deref _

theorem keeps_symbols_in (A : AddressOffsetT) (name : List Nat) :
    keeps_file (symbols_in A name) :=
  keeps_bind (keeps_sections_names_raw A) fun _ => keeps_bind (keeps_header A) fun _ =>
    keeps_bind (keeps_find_section A _ _ _ _ _) fun _ =>
      keeps_bind (keeps_symbols_text A) fun _ => keeps_deref _

theorem sets_header (A : AddressOffsetT) : sets_failbit (header A) :=
  sets_bind (sets_seekg 0) (keeps_seekg 0) fun _ =>
    sets_bind (sets_read _) (keeps_read _) fun _ => sets_pure _

theorem sets_read_section (A : AddressOffsetT) : sets_failbit (read_section A) :=
  sets_bind (sets_read _) (keeps_read _) fun _ => sets_pure _

theorem sets_sections_names_raw (A : AddressOffsetT) : sets_failbit (sections_names_raw A) :=
  sets_bind (sets_header A) (keeps_header A) fun _ =>
    sets_bind (sets_seekg _) (keeps_seekg _) fun _ =>
      sets_bind (sets_read_section A) (keeps_read_section A) fun _ =>
        sets_bind (sets_seekg _) (keeps_seekg _) fun _ => sets_read _

theorem sets_symbols_text_loop (A : AddressOffsetT) :
    ∀ (n : Nat) (acc : List symbol_t × List Nat), sets_failbit (symbols_text_loop A n acc) := by
  intro n
  induction n with
  | zero => intro acc; exact sets_pure _
  | succ n ih =>
    intro acc
    unfold symbols_text_loop
    refine sets_bind (sets_read_section A) (keeps_read_section A) fun s => ?_
    split
    · exact sets_bind sets_tellg keeps_tellg fun _ =>
        sets_bind (sets_seekg _) (keeps_seekg _) fun _ =>
          sets_bind (sets_read _) (keeps_read _) fun _ =>
            sets_bind (sets_seekg _) (keeps_seekg _) fun _ => ih _
    · split
      · exact sets_bind sets_tellg keeps_tellg fun _ =>
          sets_bind (sets_seekg _) (keeps_seekg _) fun _ =>
            sets_bind (sets_read _) (keeps_read _) fun _ =>
              sets_bind (sets_seekg _) (keeps_seekg _) fun _ => ih _
      · exact ih _

theorem sets_symbols_text (A : AddressOffsetT) : sets_failbit (symbols_text A) :=
  sets_bind (sets_header A) (keeps_header A) fun _ =>
    sets_bind (sets_seekg _) (keeps_seekg _) fun _ => sets_symbols_text_loop A _ _

theorem sets_find_section (A : AddressOffsetT) (names : List Nat) (elf : header_t)
    (section_name : List Nat) :
    ∀ n index, sets_failbit (find_section A names elf section_name n index) := by
  intro n
  induction n with
  | zero => intro index; exact sets_pure _
  | succ n ih =>
    intro index
    unfold find_section
    refine sets_bind (sets_seekg _) (keeps_seekg _) fun _ =>
      sets_bind (sets_read_section A) (keeps_read_section A) fun _ =>
        sets_bind (sets_deref _) (keeps_deref _) fun name => ?_
    split
    · exact sets_pure _
    · exact ih _

theorem sets_sections (A : AddressOffsetT) : sets_failbit (sections A) :=
  sets_bind (sets_sections_names_raw A) (keeps_sections_names_raw A) fun _ =>
    sets_bind (sets_header A) (keeps_header A) fun _ => sets_deref _

theorem sets_symbols (A : AddressOffsetT) : sets_failbit (symbols A) :=
  sets_bind (sets_symbols_text A) (keeps_symbols_text A) fun _ => sets_deref _

theorem sets_symbols_in (A : AddressOffsetT) (name : List Nat) :
    sets_failbit (symbols_in A name) :=
  sets_bind (sets_sections_names_raw A) (keeps_sections_names_raw A) fun _ =>
    sets_bind (sets_header A) (keeps_header A) fun _ =>
      sets_bind (sets_find_section A _ _ _ _ _) (keeps_find_section A _ _ _ _ _) fun _ =>
        sets_bind (sets_symbols_text A) (keeps_symbols_text A) fun _ => sets_deref _

/-- A query that starts with an absolute seek gives, called a second time on
the stream it left, what it gave the first time. -/
theorem second_call {α : Type} (Q : StreamM α) (hk : keeps_file Q) (hs : sets_failbit Q)
    (hf : ∀ data p, Q ⟨data, p, true⟩ = .failure ⟨data, p, true⟩)
    (hp : ∀ data p q, Q ⟨data, p, false⟩ = Q ⟨data, q, false⟩) (f : ifstream) :
    (∀ v f1, Q f = .ok v f1 → Q f1 = .ok v f1) ∧
    (∀ f1, Q f = .failure f1 → Q f1 = .failure f1) := by
  constructor
  · intro v f1 h
    obtain ⟨h1, h2⟩ := hk f v f1 h
    obtain ⟨data, p, fb⟩ := f
    obtain ⟨data1, p1, fb1⟩ := f1
    simp only at h1 h2
    subst h1; subst h2
    cases fb1 with
    | true => rw [hf] at h; cases h
    | false => rw [hp data1 p1 p]; exact h
  · intro f1 h
    obtain ⟨h1, _⟩ := hs f f1 h
    obtain ⟨data1, p1, fb1⟩ := f1
    simp only at h1
    subst h1
    exact hf data1 p1

theorem sections_failed (A : AddressOffsetT) (data : List Nat) (p : Nat) :
    sections A ⟨data, p, true⟩ = .failure ⟨data, p, true⟩ := by
  simp [sections, sections_names_raw, header, seekg]

theorem symbols_failed (A : AddressOffsetT) (data : List Nat) (p : Nat) :
    symbols A ⟨data, p, true⟩ = .failure ⟨data, p, true⟩ := by
  simp [symbols, symbols_text, header, seekg]

theorem symbols_in_failed (A : AddressOffsetT) (name : List Nat) (data : List Nat) (p : Nat) :
    symbols_in A name ⟨data, p, true⟩ = .failure ⟨data, p, true⟩ := by
  simp [symbols_in, sections_names_raw, header, seekg]

theorem sections_any_pos (A : AddressOffsetT) (data : List Nat) (p q : Nat) :
    sections A ⟨data, p, false⟩ = sections A ⟨data, q, false⟩ := by
  have h0 : (0 : Nat) < streamoff_limit := by decide
  simp only [sections, sections_names_raw, header, bind_run, seekg_ok data _ 0 h0]

theorem symbols_any_pos (A : AddressOffsetT) (data : List Nat) (p q : Nat) :
    symbols A ⟨data, p, false⟩ = symbols A ⟨data, q, false⟩ := by
  simp only [symbols, bind_run, symbols_text_any_pos A data p q]

theorem symbols_in_any_pos (A : AddressOffsetT) (name : List Nat) (data : List Nat) (p q : Nat) :
    symbols_in A name ⟨data, p, false⟩ = symbols_in A name ⟨data, q, false⟩ := by
  have h0 : (0 : Nat) < streamoff_limit := by decide
  simp only [symbols_in, sections_names_raw, header, bind_run, seekg_ok data _ 0 h0]

/-- A table that ends with a NUL is made of NUL-terminated records. -/
theorem exists_packed :
    ∀ (len : Nat) (table : List Nat), table.length = len → table.getLast? = some 0 →
      ∃ names : List (List Nat), names ≠ [] ∧ (∀ name ∈ names, (0 : Nat) ∉ name) ∧
        packed names = table := by
  intro len
  induction len using Nat.strong_induction_on with
  | _ len ih =>
    intro table hlen hlast
    have hmem : (0 : Nat) ∈ table := List.mem_of_getLast?_eq_some hlast
    have hsplit : table = table.takeWhile (fun x => decide (x ≠ 0)) ++
        table.dropWhile (fun x => decide (x ≠ 0)) := (List.takeWhile_append_dropWhile _ _).symm
    have hfirst : (0 : Nat) ∉ table.takeWhile (fun x => decide (x ≠ 0)) := by
      intro h
      have := List.mem_takeWhile_imp h
      simp at this
    cases hd : table.dropWhile (fun x => decide (x ≠ 0)) with
    | nil =>
      exfalso
      rw [hd, List.append_nil] at hsplit
      rw [← hsplit] at hfirst
      exact hfirst hmem
    | cons c rest =>
      have hc : c = 0 := by
        have := List.head_dropWhile_not (fun x => decide (x ≠ 0)) table (by rw [hd]; simp)
        simp only [hd, List.head_cons] at this
        simpa using this
      subst hc
      rw [hd] at hsplit
      cases hrest : rest with
      | nil =>
        refine ⟨[table.takeWhile (fun x => decide (x ≠ 0))], by simp, ?_, ?_⟩
        · intro name hn
          simp only [List.mem_singleton] at hn
          rw [hn]; exact hfirst
        · rw [hrest] at hsplit
          simp only [packed, List.map_cons, List.map_nil, List.flatten_cons, List.flatten_nil,
            List.append_nil]
          exact hsplit.symm
      | cons c1 rest1 =>
        have hlast1 : rest.getLast? = some 0 := by
          rw [hsplit] at hlast
          rw [hrest]
          rw [hrest] at hlast
          simpa [List.getLast?_append, List.getLast?_cons_cons] using hlast
        have hlen1 : rest.length < len := by
          rw [← hlen]
          conv_rhs => rw [hsplit]
          simp only [List.length_append, List.length_cons]
          omega
        obtain ⟨names, hne, hnul, hp⟩ := ih rest.length hlen1 rest rfl hlast1
        refine ⟨table.takeWhile (fun x => decide (x ≠ 0)) :: names, by simp, ?_, ?_⟩
        · intro name hn
          rcases List.mem_cons.mp hn with h | h
          · rw [h]; exact hfirst
          · exact hnul name h
        · have hp1 : packed (table.takeWhile (fun x => decide (x ≠ 0)) :: names) =
              table.takeWhile (fun x => decide (x ≠ 0)) ++ 0 :: packed names := by
            simp [packed]
          rw [hp1, hp]
          exact hsplit.symm

/-- A packed table has one NUL per name. -/
theorem packed_count (names : List (List Nat)) (h : ∀ name ∈ names, (0 : Nat) ∉ name) :
    (packed names).count 0 = names.length := by
  induction names with
  | nil => simp [packed]
  | cons name rest ih =>
    have h1 : packed (name :: rest) = name ++ 0 :: packed rest := by simp [packed]
    have h2 : name.count 0 = 0 := List.count_eq_zero.mpr (h name (List.mem_cons_self _ _))
    rw [h1, List.count_append, h2, List.count_cons_self,
      ih (fun n hn => h n (List.mem_cons_of_mem _ hn))]
    simp

/-! ## The claims on the ELF reader -/

/-- C1: `is_visible` holds exactly when the two low bits of `st_other` are
`STV_DEFAULT_`, the binding `st_info >> 4` is not `STB_LOCAL_` and `st_size` is
not zero; replacing the six upper bits of `st_other` or the low nibble of
`st_info` by anything else leaves the answer unchanged.  This holds for the
records of both layouts: the three fields are read at offsets 13, 12 and 8 of
an `Elf32_Sym` and at offsets 5, 4 and 16 of an `Elf64_Sym`. -/
theorem is_visible_iff (sym : symbol_t) :
    (is_visible sym = true ↔
      (sym.st_other &&& 0x03 = STV_DEFAULT_ ∧ sym.st_info >>> 4 ≠ STB_LOCAL_ ∧ sym.st_size ≠ 0))
    ∧ (is_visible sym = true ↔
      (sym.st_other % 4 = 0 ∧ sym.st_info / 16 ≠ 0 ∧ sym.st_size ≠ 0))
    ∧ (∀ upper low : Nat,
      is_visible { sym with st_other := sym.st_other % 4 + 4 * upper,
                            st_info := 16 * (sym.st_info / 16) + low % 16 } = is_visible sym)
    ∧ (∀ raw : List Nat, is_visible (symbol_t.decode .uint32_t raw) = true ↔
      (field raw 13 1 &&& 0x03 = 0 ∧ field raw 12 1 >>> 4 ≠ 0 ∧ field raw 8 4 ≠ 0))
    ∧ (∀ raw : List Nat, is_visible (symbol_t.decode .uint64_t raw) = true ↔
      (field raw 5 1 &&& 0x03 = 0 ∧ field raw 4 1 >>> 4 ≠ 0 ∧ field raw 16 8 ≠ 0)) := by
  have hand : ∀ x : Nat, x &&& 3 = x % 4 := fun x => Nat.and_pow_two_sub_one_eq_mod x 2
  have hshr : ∀ x : Nat, x >>> 4 = x / 16 := fun x => by rw [Nat.shiftRight_eq_div_pow]
  refine ⟨?_, ?_, ?_, ?_, ?_⟩
  · simp [is_visible, and_assoc]
  · simp [is_visible, hand, hshr, STV_DEFAULT_, STB_LOCAL_, and_assoc]
  · intro upper low
    have h1 : (sym.st_other % 4 + 4 * upper) % 4 = sym.st_other % 4 := by omega
    have h2 : (16 * (sym.st_info / 16) + low % 16) / 16 = sym.st_info / 16 := by omega
    simp only [is_visible, hand, hshr, h1, h2]
  · intro raw
    simp [is_visible, symbol_t.decode, STV_DEFAULT_, STB_LOCAL_, and_assoc]
  · intro raw
    simp [is_visible, symbol_t.decode, STV_DEFAULT_, STB_LOCAL_, and_assoc]

/-- C2: every entry of the list returned by `symbols(f)` is the name resolved
from a record of the symbol table whose binding is not local, whose size is
not zero and whose visibility is default; the result is the same as if the
records that fail one of the three conditions were absent from the table. -/
theorem symbols_only_visible (A : AddressOffsetT) (f : ifstream) (l : List (List Nat))
    (f1 : ifstream) (h : symbols A f = .ok l f1) :
    ∃ st f2, symbols_text A f = .ok st f2 ∧
      (∀ name ∈ l, ∃ sym ∈ st.1,
        sym.st_info >>> 4 ≠ STB_LOCAL_ ∧ sym.st_size ≠ 0 ∧ sym.st_other &&& 0x03 = STV_DEFAULT_ ∧
          c_str st.2 sym.st_name = some name) ∧
      push_names is_visible st.2 (st.1.filter fun sym =>
        sym.st_info >>> 4 != STB_LOCAL_ && sym.st_size != 0 && (sym.st_other &&& 0x03) == STV_DEFAULT_)
        [] = some l := by
  simp only [symbols, bind_run] at h
  cases hst : symbols_text A f with
  | failure f2 => rw [hst] at h; cases h
  | undefined => rw [hst] at h; cases h
  | ok st f2 =>
    rw [hst] at h
    have hp := deref_ok _ _ _ _ h
    refine ⟨st, f2, rfl, ?_, ?_⟩
    · intro name hn
      rcases push_names_mem _ _ _ _ _ hp name hn with h1 | ⟨sym, hs, hv, hc⟩
      · cases h1
      · refine ⟨sym, hs, ?_⟩
        simp only [is_visible, Bool.and_eq_true, beq_iff_eq, bne_iff_ne] at hv
        exact ⟨hv.1.2, hv.2, hv.1.1, hc⟩
    · have hfil : (fun sym : symbol_t =>
          sym.st_info >>> 4 != STB_LOCAL_ && sym.st_size != 0 &&
            (sym.st_other &&& 0x03) == STV_DEFAULT_) = is_visible := by
        funext sym
        simp only [is_visible]
        cases (sym.st_other &&& 0x03) == STV_DEFAULT_ <;> cases sym.st_info >>> 4 != STB_LOCAL_ <;>
          cases sym.st_size != 0 <;> rfl
      rw [hfil, push_names_filter, hp]

/-- C2, on the file with seven symbol records: `symbols` returns `foo` and
`bar`. -/
theorem symbols_only_visible_witness :
    symbols .uint64_t ⟨fixture.with_symbols, 0, false⟩ =
        .ok [fixture.ascii "foo", fixture.ascii "bar"] ⟨fixture.with_symbols, 448, false⟩ ∧
    ∃ st f2, symbols_text .uint64_t ⟨fixture.with_symbols, 0, false⟩ = .ok st f2 ∧
      (∀ name ∈ [fixture.ascii "foo", fixture.ascii "bar"], ∃ sym ∈ st.1,
        sym.st_info >>> 4 ≠ STB_LOCAL_ ∧ sym.st_size ≠ 0 ∧ sym.st_other &&& 0x03 = STV_DEFAULT_ ∧
          c_str st.2 sym.st_name = some name) ∧
      push_names is_visible st.2 (st.1.filter fun sym =>
        sym.st_info >>> 4 != STB_LOCAL_ && sym.st_size != 0 && (sym.st_other &&& 0x03) == STV_DEFAULT_)
        [] = some [fixture.ascii "foo", fixture.ascii "bar"] :=
  ⟨by decide!, symbols_only_visible .uint64_t ⟨fixture.with_symbols, 0, false⟩
    [fixture.ascii "foo", fixture.ascii "bar"] ⟨fixture.with_symbols, 448, false⟩ (by decide!)⟩

/-- C3: whenever `symbols(f, section_name)` and `symbols(f)` both return on the
same stream, the list of the section-restricted query is a sublist of the list
of the unrestricted one, for every section name; on a well-formed file both
queries do return. -/
theorem symbols_in_sublist (A : AddressOffsetT) (section_name : List Nat) (f : ifstream) :
    (∀ (l l1 : List (List Nat)) (f1 f2 : ifstream),
      symbols_in A section_name f = .ok l f1 → symbols A f = .ok l1 f2 → l.Sublist l1)
    ∧ (f.failbit = false → well_formed A f.bytes →
      ∃ l l1 f1 f2, symbols_in A section_name f = .ok l f1 ∧ symbols A f = .ok l1 f2 ∧
        l.Sublist l1) := by
  constructor
  · intro l l1 f1 f2 h1 h2
    obtain ⟨data, p, fb⟩ := f
    cases fb with
    | true => simp [symbols, symbols_text_failed] at h2
    | false =>
      simp only [symbols_in, bind_run] at h1
      cases hn : sections_names_raw A ⟨data, p, false⟩ with
      | failure f3 => rw [hn] at h1; cases h1
      | undefined => rw [hn] at h1; cases h1
      | ok names f3 =>
        rw [hn] at h1
        simp only at h1
        obtain ⟨hb3, hf3⟩ := keeps_sections_names_raw A _ _ _ hn
        cases hh : header A f3 with
        | failure f4 => rw [hh] at h1; cases h1
        | undefined => rw [hh] at h1; cases h1
        | ok elf f4 =>
          rw [hh] at h1
          simp only at h1
          obtain ⟨hb4, hf4⟩ := keeps_header A _ _ _ hh
          cases hi : find_section A names elf section_name elf.e_shnum 0 f4 with
          | failure f5 => rw [hi] at h1; cases h1
          | undefined => rw [hi] at h1; cases h1
          | ok index f5 =>
            rw [hi] at h1
            simp only at h1
            obtain ⟨hb5, hf5⟩ := keeps_find_section A names elf section_name _ _ _ _ _ hi
            obtain ⟨d5, p5, fb5⟩ := f5
            have hd5 : d5 = data := by
              simp only at hb5 hb4 hb3; rw [hb5, hb4, hb3]
            have hfb5 : fb5 = false := by
              simp only at hf5 hf4 hf3; rw [hf5, hf4, hf3]
            subst hd5; subst hfb5
            rw [symbols_text_any_pos A d5 p5 p] at h1
            simp only [symbols, bind_run] at h2
            cases hst : symbols_text A ⟨d5, p, false⟩ with
            | failure f6 => rw [hst] at h2; cases h2
            | undefined => rw [hst] at h2; cases h2
            | ok st f6 =>
              rw [hst] at h1 h2
              simp only at h1 h2
              exact push_names_sublist _ _ st.2 (fun s hs => by
                simp only [Bool.and_eq_true] at hs; exact hs.2) st.1 [] [] l l1
                (List.Sublist.refl _) (deref_ok _ _ _ _ h1) (deref_ok _ _ _ _ h2)
  · intro hgood wf
    obtain ⟨data, p, fb⟩ := f
    simp only at hgood wf ⊢
    subst hgood
    obtain ⟨index, q, hq⟩ := symbols_in_returns A data wf section_name p
    obtain ⟨q1, hq1⟩ := symbols_ok A data wf p
    refine ⟨_, _, _, _, hq, hq1, ?_⟩
    apply List.Sublist.filter
    apply List.Sublist.map
    apply List.monotone_filter_right
    intro s hs
    simp only [Bool.and_eq_true] at hs
    exact hs.2

/-- C3, on the file with seven symbol records and the section `.text`. -/
theorem symbols_in_sublist_witness :
    symbols_in .uint64_t (fixture.ascii ".text") ⟨fixture.with_symbols, 0, false⟩ =
        .ok [fixture.ascii "foo"] ⟨fixture.with_symbols, 448, false⟩ ∧
    symbols .uint64_t ⟨fixture.with_symbols, 0, false⟩ =
        .ok [fixture.ascii "foo", fixture.ascii "bar"] ⟨fixture.with_symbols, 448, false⟩ ∧
    [fixture.ascii "foo"].Sublist [fixture.ascii "foo", fixture.ascii "bar"] :=
  ⟨by decide!, by decide!,
    (symbols_in_sublist .uint64_t (fixture.ascii ".text") ⟨fixture.with_symbols, 0, false⟩).1
      [fixture.ascii "foo"] [fixture.ascii "foo", fixture.ascii "bar"]
      ⟨fixture.with_symbols, 448, false⟩ ⟨fixture.with_symbols, 448, false⟩
      (by decide!) (by decide!)⟩

/-- C5, refuted as stated: `bogus` names no section of the well-formed file
with seven symbol records, `symbols(f, "bogus")` returns the empty list and
`symbols(f)` returns `foo` and `bar`. -/
theorem symbols_in_unknown_section_counterexample :
    well_formed .uint64_t fixture.with_symbols ∧
    (∀ i, i < (file_header .uint64_t fixture.with_symbols).e_shnum →
      name_of_section .uint64_t fixture.with_symbols i ≠ c_string (fixture.ascii "bogus")) ∧
    symbols_in .uint64_t (fixture.ascii "bogus") ⟨fixture.with_symbols, 0, false⟩ =
      .ok [] ⟨fixture.with_symbols, 448, false⟩ ∧
    symbols .uint64_t ⟨fixture.with_symbols, 0, false⟩ =
      .ok [fixture.ascii "foo", fixture.ascii "bar"] ⟨fixture.with_symbols, 448, false⟩ :=
  ⟨by decide!, by decide!, by decide!, by decide!⟩

/-- C5, amended: on a well-formed file, for a section name that is the decoded
name of no section header, `symbols(f, section_name)` returns the names of the
visible records whose `st_shndx` equals `e_shnum`; this is a sublist of what
`symbols(f)` returns, and the same list exactly when every visible record with
a non-empty name has `st_shndx = e_shnum`. -/
theorem symbols_in_unknown_section (A : AddressOffsetT) (f : ifstream) (section_name : List Nat)
    (hgood : f.failbit = false) (wf : well_formed A f.bytes)
    (hunknown : ∀ i, i < (file_header A f.bytes).e_shnum →
      name_of_section A f.bytes i ≠ c_string section_name) :
    ∃ l l1 f1 f2, symbols A f = .ok l f1 ∧ symbols_in A section_name f = .ok l1 f2 ∧
      l1 = (((loaded_tables A f.bytes).1.filter fun sym =>
            sym.st_shndx == (file_header A f.bytes).e_shnum && is_visible sym).map
          fun sym => string_at (loaded_tables A f.bytes).2 sym.st_name).filter
            (fun name => !name.isEmpty) ∧
      l1.Sublist l ∧
      (l1 = l ↔ ∀ sym ∈ (loaded_tables A f.bytes).1, is_visible sym = true →
        string_at (loaded_tables A f.bytes).2 sym.st_name ≠ [] →
        sym.st_shndx = (file_header A f.bytes).e_shnum) := by
  obtain ⟨data, p, fb⟩ := f
  simp only at hgood wf hunknown ⊢
  subst hgood
  have hfind : ∀ p1, ∃ q, find_section A (names_table A data) (file_header A data) section_name
      (file_header A data).e_shnum 0 ⟨data, p1, false⟩ =
        .ok (file_header A data).e_shnum ⟨data, q, false⟩ := by
    intro p1
    have h := (find_section_ok A data wf section_name (file_header A data).e_shnum 0 p1
      (by omega)).1 (fun j _ hj => hunknown j (by omega))
    simpa using h
  obtain ⟨q, hq⟩ := symbols_in_index A data wf section_name _ p hfind
  obtain ⟨q1, hq1⟩ := symbols_ok A data wf p
  refine ⟨_, _, _, _, hq1, hq, rfl, ?_, ?_⟩
  · apply List.Sublist.filter
    apply List.Sublist.map
    apply List.monotone_filter_right
    intro s hs
    simp only [Bool.and_eq_true] at hs
    exact hs.2
  · rw [List.filter_map, List.filter_map, List.filter_filter, List.filter_filter]
    have hfun : (fun a : symbol_t =>
          ((fun name : List Nat => !name.isEmpty) ∘ fun sym =>
            string_at (loaded_tables A data).2 sym.st_name) a &&
            (a.st_shndx == (file_header A data).e_shnum && is_visible a)) =
        fun a => (a.st_shndx == (file_header A data).e_shnum) &&
          (((fun name : List Nat => !name.isEmpty) ∘ fun sym =>
            string_at (loaded_tables A data).2 sym.st_name) a && is_visible a) := by
      funext a
      exact Bool.and_left_comm _ _ _
    rw [hfun]
    constructor
    · intro h
      have hlen := congrArg List.length h
      simp only [List.length_map] at hlen
      have hsub : ((loaded_tables A data).1.filter fun a =>
          (a.st_shndx == (file_header A data).e_shnum) &&
          (((fun name : List Nat => !name.isEmpty) ∘ fun sym =>
            string_at (loaded_tables A data).2 sym.st_name) a && is_visible a)).Sublist
          ((loaded_tables A data).1.filter fun a =>
            ((fun name : List Nat => !name.isEmpty) ∘ fun sym =>
              string_at (loaded_tables A data).2 sym.st_name) a && is_visible a) := by
        apply List.monotone_filter_right
        intro x hx
        simp only [Bool.and_eq_true] at hx ⊢
        exact hx.2
      have heq := hsub.eq_of_length hlen
      rw [filter_and_eq_iff] at heq
      intro sym hs hv hne
      have := heq sym hs (by simp [hv, hne])
      simpa using this
    · intro h
      congr 1
      rw [filter_and_eq_iff]
      intro sym hs hq
      simp only [Function.comp, Bool.and_eq_true, Bool.not_eq_true', List.isEmpty_eq_false] at hq
      simpa using h sym hs hq.2 (by simpa using hq.1)

/-- C5 amended, on the file with seven symbol records and the name `bogus`. -/
theorem symbols_in_unknown_section_witness :
    well_formed .uint64_t fixture.with_symbols ∧
    (∀ i, i < (file_header .uint64_t fixture.with_symbols).e_shnum →
      name_of_section .uint64_t fixture.with_symbols i ≠ c_string (fixture.ascii "bogus")) ∧
    ∃ l l1 f1 f2, symbols .uint64_t ⟨fixture.with_symbols, 0, false⟩ = .ok l f1 ∧
      symbols_in .uint64_t (fixture.ascii "bogus") ⟨fixture.with_symbols, 0, false⟩ = .ok l1 f2 ∧
      l1 = (((loaded_tables .uint64_t fixture.with_symbols).1.filter fun sym =>
            sym.st_shndx == (file_header .uint64_t fixture.with_symbols).e_shnum &&
              is_visible sym).map
          fun sym => string_at (loaded_tables .uint64_t fixture.with_symbols).2 sym.st_name).filter
            (fun name => !name.isEmpty) ∧
      l1.Sublist l ∧
      (l1 = l ↔ ∀ sym ∈ (loaded_tables .uint64_t fixture.with_symbols).1, is_visible sym = true →
        string_at (loaded_tables .uint64_t fixture.with_symbols).2 sym.st_name ≠ [] →
        sym.st_shndx = (file_header .uint64_t fixture.with_symbols).e_shnum) :=
  ⟨by decide!, by decide!,
    symbols_in_unknown_section .uint64_t ⟨fixture.with_symbols, 0, false⟩ (fixture.ascii "bogus")
      rfl (by decide!) (by decide!)⟩

/-- C6, refuted as stated: in the well-formed file whose string table holds
the three names in the opposite order, `sections` returns `.shstrtab`, `.data`,
`.text`, while the names in section-table order are `.text`, `.data`,
`.shstrtab`. -/
theorem sections_table_order_counterexample :
    well_formed .uint64_t fixture.three_sections_repacked ∧
    (file_header .uint64_t fixture.three_sections_repacked).e_shnum = 3 ∧
    (List.range 3).map (name_of_section .uint64_t fixture.three_sections_repacked) =
      [fixture.ascii ".text", fixture.ascii ".data", fixture.ascii ".shstrtab"] ∧
    sections .uint64_t ⟨fixture.three_sections_repacked, 0, false⟩ =
      .ok [fixture.ascii ".shstrtab", fixture.ascii ".data", fixture.ascii ".text"]
        ⟨fixture.three_sections_repacked, 64, false⟩ :=
  ⟨by decide!, by decide!, by decide!, by decide!⟩

/-- C6, amended: on a well-formed file whose section-name string table is the
section names packed in section-table order, each followed by one NUL,
`sections` returns one entry per section header, the entry of index `i` being
the NUL-terminated string at offset `sh_name` of header `i`. -/
theorem sections_table_order (A : AddressOffsetT) (f : ifstream)
    (hgood : f.failbit = false) (wf : well_formed A f.bytes)
    (hpacked : names_table A f.bytes =
      packed ((List.range (file_header A f.bytes).e_shnum).map (name_of_section A f.bytes))) :
    ∃ f1, sections A f =
      .ok ((List.range (file_header A f.bytes).e_shnum).map (name_of_section A f.bytes)) f1 := by
  obtain ⟨data, p, fb⟩ := f
  simp only at hgood wf hpacked ⊢
  subst hgood
  obtain ⟨q1, h1⟩ := sections_names_raw_ok A data wf p
  have hpos := wf.shstrndx_lt
  have hne : (List.range (file_header A data).e_shnum).map (name_of_section A data) ≠ [] := by
    intro h
    have := congrArg List.length h
    simp only [List.length_map, List.length_range, List.length_nil] at this
    omega
  have hnul : ∀ name ∈ (List.range (file_header A data).e_shnum).map (name_of_section A data),
      (0 : Nat) ∉ name := by
    intro name hn
    obtain ⟨i, _, hi⟩ := List.mem_map.mp hn
    rw [← hi]
    exact string_at_no_nul _ _
  have hloop := sections_loop_packed _ hne hnul [] [] (names_table A data).length
    (by rw [hpacked]; exact packed_length_ge _)
  simp only [List.nil_append, List.length_nil, ← hpacked] at hloop
  refine ⟨⟨data, header_t.sizeof A, false⟩, ?_⟩
  simp only [sections, bind_run, h1, header_ok A data q1 wf.header_in, hloop, StreamM.deref]

/-- C6 amended, on the file with the three sections `.text`, `.data`,
`.shstrtab`: the hypotheses hold and the list returned is made of these three
names in this order. -/
theorem sections_table_order_witness :
    well_formed .uint64_t fixture.three_sections ∧
    names_table .uint64_t fixture.three_sections =
      packed ((List.range (file_header .uint64_t fixture.three_sections).e_shnum).map
        (name_of_section .uint64_t fixture.three_sections)) ∧
    (List.range (file_header .uint64_t fixture.three_sections).e_shnum).map
        (name_of_section .uint64_t fixture.three_sections) =
      [fixture.ascii ".text", fixture.ascii ".data", fixture.ascii ".shstrtab"] ∧
    ∃ f1, sections .uint64_t ⟨fixture.three_sections, 0, false⟩ =
      .ok ((List.range (file_header .uint64_t fixture.three_sections).e_shnum).map
        (name_of_section .uint64_t fixture.three_sections)) f1 :=
  ⟨by decide!, by decide!, by decide!,
    sections_table_order .uint64_t ⟨fixture.three_sections, 0, false⟩ rfl (by decide!)
      (by decide!)⟩

/-- C7, the code at the failing input: the file `20 7F 45 4C 46 01` does not
start with the five magic bytes of ELF32, and `parsing_supported` returns
`true` on it because `>>` skips the leading space. -/
theorem parsing_supported_leading_space :
    ([0x20, 0x7f, 0x45, 0x4c, 0x46, 0x01] : List Nat).take 5 ≠ magic_bytes .uint32_t ∧
    parsing_supported .uint32_t ⟨[0x20, 0x7f, 0x45, 0x4c, 0x46, 0x01], 0, false⟩ =
      .ok true ⟨[0x20, 0x7f, 0x45, 0x4c, 0x46, 0x01], 6, false⟩ :=
  ⟨by decide, by decide⟩

/-- C8, refuted as stated: on the empty file and on the first four magic bytes
`parsing_supported` ends with `std::ios_base::failure`, not with `false`. -/
theorem parsing_supported_short_file_counterexample :
    parsing_supported .uint64_t ⟨[], 0, false⟩ = .failure ⟨[], 0, true⟩ ∧
    parsing_supported .uint32_t ⟨[0x7f, 0x45, 0x4c, 0x46], 0, false⟩ =
      .failure ⟨[0x7f, 0x45, 0x4c, 0x46], 4, true⟩ :=
  ⟨by decide, by decide⟩

/-- C8, amended: on a file shorter than the five bytes of the probe,
`parsing_supported` never returns `true`; it throws `std::ios_base::failure`
when the file is a prefix of the magic (the empty file included), and returns
`false` when the file holds no whitespace byte and is not a prefix of the
magic. -/
theorem parsing_supported_short_file (A : AddressOffsetT) (f : ifstream)
    (hgood : f.failbit = false) (hshort : f.bytes.length < 5) :
    (∀ f1, parsing_supported A f ≠ .ok true f1)
    ∧ (f.bytes <+: magic_bytes A → ∃ f1, parsing_supported A f = .failure f1)
    ∧ ((∀ c ∈ f.bytes, isspace c = false) → ¬ f.bytes <+: magic_bytes A →
        ∃ f1, parsing_supported A f = .ok false f1) := by
  have hmain := parsing_supported_probe A f hgood
  have hlen : (magic_bytes A).length = 5 := rfl
  refine ⟨?_, ?_, ?_⟩
  · intro f1 h
    cases hp : probe (magic_bytes A) (f.bytes.filter (fun c => !isspace c)) with
    | none =>
      rw [hp] at hmain
      obtain ⟨f2, h2⟩ := hmain
      rw [h2] at h; cases h
    | some b =>
      rw [hp] at hmain
      obtain ⟨f2, h2, _⟩ := hmain
      rw [h2] at h
      cases h
      have h3 := probe_true_length _ _ hp
      have h4 := List.length_filter_le (fun c => !isspace c) f.bytes
      omega
  · intro hpre
    have hns : f.bytes.filter (fun c => !isspace c) = f.bytes := by
      rw [List.filter_eq_self]
      intro c hc
      simp [magic_bytes_not_space A c (hpre.subset hc)]
    rw [hns, probe_short _ _ hpre (by omega)] at hmain
    exact hmain
  · intro hns hpre
    have hns1 : f.bytes.filter (fun c => !isspace c) = f.bytes := by
      rw [List.filter_eq_self]
      intro c hc
      simp [hns c hc]
    rw [hns1, probe_mismatch _ _ hpre (by omega)] at hmain
    obtain ⟨f1, h1, _⟩ := hmain
    exact ⟨f1, h1⟩

/-- C8 amended, on the file made of the first two magic bytes. -/
theorem parsing_supported_short_file_witness :
    ([0x7f, 0x45] : List Nat).length < 5 ∧
    ([0x7f, 0x45] : List Nat) <+: magic_bytes .uint64_t ∧
    ∃ f1, parsing_supported .uint64_t ⟨[0x7f, 0x45], 0, false⟩ = .failure f1 :=
  ⟨by decide, by decide,
    (parsing_supported_short_file .uint64_t ⟨[0x7f, 0x45], 0, false⟩ rfl (by decide)).2.1
      (by decide)⟩

/-- C9, the code at the failing input: the file `7F 45 4C 46 20 02` has a fifth
byte that is neither 1 nor 2, and `elf_info<uint64>::parsing_supported` returns
`true` on it because `>>` skips the space. -/
theorem parsing_supported_space_before_class :
    ([0x7f, 0x45, 0x4c, 0x46, 0x20, 0x02] : List Nat).take 4 = [0x7f, 0x45, 0x4c, 0x46] ∧
    ([0x7f, 0x45, 0x4c, 0x46, 0x20, 0x02] : List Nat)[4]? = some 0x20 ∧
    parsing_supported .uint64_t ⟨[0x7f, 0x45, 0x4c, 0x46, 0x20, 0x02], 0, false⟩ =
      .ok true ⟨[0x7f, 0x45, 0x4c, 0x46, 0x20, 0x02], 6, false⟩ :=
  ⟨by decide, by decide, by decide⟩

/-- C12, the code at the failing input: in this well-formed file the symbol
table, section 2, links the string table of index 3 (`sh_link = 3`), in which
`st_name = 1` of the visible record is the name `foo`; the last string table
of the file is the section-name string table, section 4, and both
`symbols(f)` and `symbols(f, ".text")` return the section name `.text` read
there at offset 1, not `foo`. -/
theorem symbols_strtab_not_last :
    well_formed .uint64_t fixture.strtab_not_last ∧
    last_of_type .uint64_t fixture.strtab_not_last SHT_SYMTAB_ 2 ∧
    (file_section .uint64_t fixture.strtab_not_last 2).sh_link = 3 ∧
    (file_section .uint64_t fixture.strtab_not_last 3).sh_type = SHT_STRTAB_ ∧
    (symtab_records .uint64_t fixture.strtab_not_last 2).map (fun sym =>
      (is_visible sym, sym.st_name, string_at (section_bytes fixture.strtab_not_last
        (file_section .uint64_t fixture.strtab_not_last 3)) sym.st_name)) =
      [(false, 0, []), (true, 1, fixture.ascii "foo")] ∧
    (file_header .uint64_t fixture.strtab_not_last).e_shstrndx = 4 ∧
    string_at (names_table .uint64_t fixture.strtab_not_last) 1 = fixture.ascii ".text" ∧
    symbols .uint64_t ⟨fixture.strtab_not_last, 0, false⟩ =
      .ok [fixture.ascii ".text"] ⟨fixture.strtab_not_last, 384, false⟩ ∧
    symbols_in .uint64_t (fixture.ascii ".text") ⟨fixture.strtab_not_last, 0, false⟩ =
      .ok [fixture.ascii ".text"] ⟨fixture.strtab_not_last, 384, false⟩ :=
  ⟨by decide!, by decide!, by decide!, by decide!, by decide!, by decide!, by decide!,
    by decide!, by decide!⟩

/-- C13: the round of the scan of `symbols_text` at a section header `i` of
type `SHT_SYMTAB_`, with byte size `s` and record size `r` (16 for ELF32, 24
for ELF64).  When the `r * (s / r) = s - s % r` bytes at `sh_offset` are in the
file, the round returns the `s / r` records decoded from exactly these bytes,
record `j` from the `r` bytes at `sh_offset + j * r`, leaves the text as it
was and the get position behind header `i`; nothing is asked of the bytes of a
trailing partial record, which may be missing from the file.  When there is a
whole record and one of these bytes is missing, the round throws.  Whenever
`symbols_text` returns and section `i` is the last symbol table, the records
it returns are these `s / r` records. -/
theorem symtab_whole_records (A : AddressOffsetT) (data : List Nat) (i : Nat)
    (acc : List symbol_t × List Nat)
    (hhead : (file_header A data).e_shoff + (i + 1) * section_t.sizeof A ≤ data.length)
    (htype : (file_section A data i).sh_type = SHT_SYMTAB_) :
    symbol_t.sizeof .uint32_t = 16 ∧ symbol_t.sizeof .uint64_t = 24 ∧
    (file_section A data i).sh_size - (file_section A data i).sh_size % symbol_t.sizeof A =
      symbol_t.sizeof A * ((file_section A data i).sh_size / symbol_t.sizeof A) ∧
    (data.length < streamoff_limit →
      (file_section A data i).sh_offset +
        symbol_t.sizeof A * ((file_section A data i).sh_size / symbol_t.sizeof A) ≤ data.length →
      symbols_text_loop A 1 acc
          ⟨data, (file_header A data).e_shoff + i * section_t.sizeof A, false⟩ =
        .ok (symbol_t.decode_all A ((file_section A data i).sh_size / symbol_t.sizeof A)
            ((data.drop (file_section A data i).sh_offset).take
              (symbol_t.sizeof A * ((file_section A data i).sh_size / symbol_t.sizeof A))), acc.2)
          ⟨data, (file_header A data).e_shoff + (i + 1) * section_t.sizeof A, false⟩ ∧
      (∀ n, symbols_text_loop A (n + 1) acc
          ⟨data, (file_header A data).e_shoff + i * section_t.sizeof A, false⟩ =
        symbols_text_loop A n
          (symbol_t.decode_all A ((file_section A data i).sh_size / symbol_t.sizeof A)
            ((data.drop (file_section A data i).sh_offset).take
              (symbol_t.sizeof A * ((file_section A data i).sh_size / symbol_t.sizeof A))), acc.2)
          ⟨data, (file_header A data).e_shoff + (i + 1) * section_t.sizeof A, false⟩)) ∧
    (symbol_t.decode_all A ((file_section A data i).sh_size / symbol_t.sizeof A)
      ((data.drop (file_section A data i).sh_offset).take
        (symbol_t.sizeof A * ((file_section A data i).sh_size / symbol_t.sizeof A)))).length =
      (file_section A data i).sh_size / symbol_t.sizeof A ∧
    (∀ j, j < (file_section A data i).sh_size / symbol_t.sizeof A →
      (symbol_t.decode_all A ((file_section A data i).sh_size / symbol_t.sizeof A)
        ((data.drop (file_section A data i).sh_offset).take
          (symbol_t.sizeof A * ((file_section A data i).sh_size / symbol_t.sizeof A))))[j]? =
        some (symbol_t.decode A
          ((data.drop ((file_section A data i).sh_offset + j * symbol_t.sizeof A)).take
            (symbol_t.sizeof A)))) ∧
    (0 < (file_section A data i).sh_size / symbol_t.sizeof A →
      data.length < (file_section A data i).sh_offset +
        symbol_t.sizeof A * ((file_section A data i).sh_size / symbol_t.sizeof A) →
      ∀ n, ∃ f1, symbols_text_loop A (n + 1) acc
          ⟨data, (file_header A data).e_shoff + i * section_t.sizeof A, false⟩ = .failure f1) ∧
    (∀ (p : Nat) (S : List symbol_t) (T : List Nat) (f1 : ifstream),
      symbols_text A ⟨data, p, false⟩ = .ok (S, T) f1 →
      last_of_type A data SHT_SYMTAB_ i →
      S = symbol_t.decode_all A ((file_section A data i).sh_size / symbol_t.sizeof A)
          ((data.drop (file_section A data i).sh_offset).take
            (symbol_t.sizeof A * ((file_section A data i).sh_size / symbol_t.sizeof A))) ∧
      S.length = (file_section A data i).sh_size / symbol_t.sizeof A) := by
  have hstep : data.length < streamoff_limit →
      (file_section A data i).sh_offset +
        symbol_t.sizeof A * ((file_section A data i).sh_size / symbol_t.sizeof A) ≤ data.length →
      ∀ n, symbols_text_loop A (n + 1) acc
          ⟨data, (file_header A data).e_shoff + i * section_t.sizeof A, false⟩ =
        symbols_text_loop A n
          (symbol_t.decode_all A ((file_section A data i).sh_size / symbol_t.sizeof A)
            ((data.drop (file_section A data i).sh_offset).take
              (symbol_t.sizeof A * ((file_section A data i).sh_size / symbol_t.sizeof A))), acc.2)
          ⟨data, (file_header A data).e_shoff + (i + 1) * section_t.sizeof A, false⟩ := by
    intro hlen hin n
    rw [symbols_text_loop_succ A data n i acc hhead]
    simp only [htype, if_true]
    rw [whole_records_size]
    exact load_table data _ _ _ _ ⟨by omega, Or.inr hin, by omega⟩
  refine ⟨rfl, rfl, whole_records_size _ _, ?_, decode_all_length _ _ _, ?_, ?_, ?_⟩
  · intro hlen hin
    refine ⟨?_, hstep hlen hin⟩
    rw [hstep hlen hin 0]
    rfl
  · intro j hj
    have := symtab_records_get A data i j hj
    simpa only [symtab_records, whole_records_size] using this
  · intro hpos hout n
    rw [symbols_text_loop_succ A data n i acc hhead]
    simp only [htype, if_true]
    rw [whole_records_size]
    apply load_table_fail
    rintro ⟨_, h2, _⟩
    have hr : 0 < symbol_t.sizeof A *
        ((file_section A data i).sh_size / symbol_t.sizeof A) :=
      Nat.mul_pos (by cases A <;> decide) hpos
    rcases h2 with h2 | h2
    · omega
    · omega
  · intro p S T f1 h hlast
    obtain ⟨_, _, h3, _⟩ := symbols_text_returns A data p (S, T) f1 h
    have hS : S = (loaded_tables A data).1 := congrArg Prod.fst h3
    rw [hS, loaded_symbols_last A data i hlast, symtab_records, whole_records_size]
    exact ⟨rfl, decode_all_length _ _ _⟩

/-- C13, on the file whose symbol table, section 3, declares 60 bytes while the
file ends behind its two whole records, 48 bytes: the round at header 3 and
`symbols_text` return the two records; on the same file cut one byte short the
round throws. -/
theorem symtab_whole_records_witness :
    (file_section .uint64_t fixture.partial_record 3).sh_type = SHT_SYMTAB_ ∧
    (file_section .uint64_t fixture.partial_record 3).sh_size = 60 ∧
    (file_section .uint64_t fixture.partial_record 3).sh_offset + 48 =
      fixture.partial_record.length ∧
    symbols_text_loop .uint64_t 1 ([], [])
        ⟨fixture.partial_record, (file_header .uint64_t fixture.partial_record).e_shoff +
          3 * section_t.sizeof .uint64_t, false⟩ =
      .ok (symbol_t.decode_all .uint64_t
          ((file_section .uint64_t fixture.partial_record 3).sh_size / symbol_t.sizeof .uint64_t)
          ((fixture.partial_record.drop
            (file_section .uint64_t fixture.partial_record 3).sh_offset).take
              (symbol_t.sizeof .uint64_t *
                ((file_section .uint64_t fixture.partial_record 3).sh_size /
                  symbol_t.sizeof .uint64_t))), [])
        ⟨fixture.partial_record, (file_header .uint64_t fixture.partial_record).e_shoff +
          (3 + 1) * section_t.sizeof .uint64_t, false⟩ ∧
    symbol_t.decode_all .uint64_t
        ((file_section .uint64_t fixture.partial_record 3).sh_size / symbol_t.sizeof .uint64_t)
        ((fixture.partial_record.drop
          (file_section .uint64_t fixture.partial_record 3).sh_offset).take
            (symbol_t.sizeof .uint64_t *
              ((file_section .uint64_t fixture.partial_record 3).sh_size /
                symbol_t.sizeof .uint64_t))) =
      [⟨0, 0, 0, 0, 0, 0⟩, ⟨1, 0, 4, 18, 0, 1⟩] ∧
    symbols_text .uint64_t ⟨fixture.partial_record, 0, false⟩ =
      .ok ([⟨0, 0, 0, 0, 0, 0⟩, ⟨1, 0, 4, 18, 0, 1⟩], [0, 102, 111, 111, 0])
        ⟨fixture.partial_record, 320, false⟩ ∧
    (∃ f1, symbols_text_loop .uint64_t 1 ([], [])
        ⟨fixture.partial_record.take 399,
          (file_header .uint64_t (fixture.partial_record.take 399)).e_shoff +
            3 * section_t.sizeof .uint64_t, false⟩ = .failure f1) :=
  ⟨by decide!, by decide!, by decide!,
    ((symtab_whole_records .uint64_t fixture.partial_record 3 ([], []) (by decide!)
      (by decide!)).2.2.2.1 (by decide!) (by decide!)).1,
    by decide!, by decide!,
    (symtab_whole_records .uint64_t (fixture.partial_record.take 399) 3 ([], []) (by decide!)
      (by decide!)).2.2.2.2.2.2.1 (by decide!) (by decide!) 0⟩

/-- C14, the code at the failing input: the only visible record of this file
has `st_name = 100` and the string table has 5 bytes; `symbols(f)` and
`symbols(f, ".text")` read the name outside the table instead of failing. -/
theorem symbols_name_out_of_table :
    ¬ well_formed .uint64_t fixture.name_out_of_table ∧
    (loaded_tables .uint64_t fixture.name_out_of_table).2.length = 5 ∧
    (∃ sym ∈ (loaded_tables .uint64_t fixture.name_out_of_table).1,
      is_visible sym = true ∧ sym.st_name = 100) ∧
    symbols .uint64_t ⟨fixture.name_out_of_table, 0, false⟩ = .undefined ∧
    symbols_in .uint64_t (fixture.ascii ".text") ⟨fixture.name_out_of_table, 0, false⟩ =
      .undefined :=
  ⟨by decide!, by decide!, by decide!, by decide!, by decide!⟩

/-- C15: on a well-formed file cut down to its first `n` bytes, a query throws
`std::ios_base::failure`, and so neither returns a list nor reads outside a
buffer, as soon as the cut falls inside something the query has to read: for
`sections` the header, the header of the section-name string table or that
table; for `symbols` the header, the section header table, the whole records
of a symbol table or the bytes of a string table. -/
theorem truncated_file_fails (A : AddressOffsetT) (data : List Nat) (wf : well_formed A data)
    (n p : Nat) :
    ((n < header_t.sizeof A ∨
        n < (file_header A data).e_shoff +
          ((file_header A data).e_shstrndx + 1) * section_t.sizeof A ∨
        n < (file_section A data (file_header A data).e_shstrndx).sh_offset +
          (file_section A data (file_header A data).e_shstrndx).sh_size) →
      ∃ f1, sections A ⟨data.take n, p, false⟩ = .failure f1)
    ∧ ((n < header_t.sizeof A ∨
        n < (file_header A data).e_shoff + (file_header A data).e_shnum * section_t.sizeof A ∨
        ∃ j, j < (file_header A data).e_shnum ∧
          (((file_section A data j).sh_type = SHT_SYMTAB_ ∧
              0 < (file_section A data j).sh_size -
                (file_section A data j).sh_size % symbol_t.sizeof A ∧
              n < (file_section A data j).sh_offset + ((file_section A data j).sh_size -
                (file_section A data j).sh_size % symbol_t.sizeof A)) ∨
            ((file_section A data j).sh_type = SHT_STRTAB_ ∧
              0 < (file_section A data j).sh_size ∧
              n < (file_section A data j).sh_offset + (file_section A data j).sh_size))) →
      ∃ f1, symbols A ⟨data.take n, p, false⟩ = .failure f1) :=
  ⟨sections_truncated A data wf n p, symbols_truncated A data wf n p⟩

/-- C15, on the file with seven symbol records: cut to 480 bytes, inside the
section-name string table, `sections` throws; cut to 600 bytes, inside the
symbol table, `symbols` throws. -/
theorem truncated_file_fails_witness :
    well_formed .uint64_t fixture.with_symbols ∧
    (∃ f1, sections .uint64_t ⟨fixture.with_symbols.take 480, 0, false⟩ = .failure f1) ∧
    (∃ f1, symbols .uint64_t ⟨fixture.with_symbols.take 600, 0, false⟩ = .failure f1) :=
  ⟨by decide!,
    (truncated_file_fails .uint64_t fixture.with_symbols (by decide!) 480 0).1
      (Or.inr (Or.inr (by decide!))),
    (truncated_file_fails .uint64_t fixture.with_symbols (by decide!) 600 0).2
      (Or.inr (Or.inr ⟨4, by decide!, Or.inl ⟨by decide!, by decide!, by decide!⟩⟩))⟩

/-- C16: each query of the ELF reader, called a second time on the stream the
first call left, gives the same result: the same list when the first call
returned, `std::ios_base::failure` again when the first call threw.  On a
stream without failure bit the result does not depend on the get position,
because the query starts with `seekg(0)`. -/
theorem queries_twice (A : AddressOffsetT) (section_name : List Nat) (f : ifstream) :
    ((∀ v f1, sections A f = .ok v f1 → sections A f1 = .ok v f1) ∧
      (∀ f1, sections A f = .failure f1 → sections A f1 = .failure f1)) ∧
    ((∀ v f1, symbols A f = .ok v f1 → symbols A f1 = .ok v f1) ∧
      (∀ f1, symbols A f = .failure f1 → symbols A f1 = .failure f1)) ∧
    ((∀ v f1, symbols_in A section_name f = .ok v f1 → symbols_in A section_name f1 = .ok v f1) ∧
      (∀ f1, symbols_in A section_name f = .failure f1 →
        symbols_in A section_name f1 = .failure f1)) ∧
    (∀ p q, sections A ⟨f.bytes, p, false⟩ = sections A ⟨f.bytes, q, false⟩ ∧
      symbols A ⟨f.bytes, p, false⟩ = symbols A ⟨f.bytes, q, false⟩ ∧
      symbols_in A section_name ⟨f.bytes, p, false⟩ =
        symbols_in A section_name ⟨f.bytes, q, false⟩) :=
  ⟨second_call _ (keeps_sections A) (sets_sections A) (sections_failed A) (sections_any_pos A) f,
    second_call _ (keeps_symbols A) (sets_symbols A) (symbols_failed A) (symbols_any_pos A) f,
    second_call _ (keeps_symbols_in A _) (sets_symbols_in A _) (symbols_in_failed A _)
      (symbols_in_any_pos A _) f,
    fun p q => ⟨sections_any_pos A _ p q, symbols_any_pos A _ p q, symbols_in_any_pos A _ _ p q⟩⟩

/-- C16, on the file with seven symbol records: the second call of `symbols`
on the stream left by the first returns `foo` and `bar` again. -/
theorem queries_twice_witness :
    symbols .uint64_t ⟨fixture.with_symbols, 17, false⟩ =
      .ok [fixture.ascii "foo", fixture.ascii "bar"] ⟨fixture.with_symbols, 448, false⟩ ∧
    symbols .uint64_t ⟨fixture.with_symbols, 448, false⟩ =
      .ok [fixture.ascii "foo", fixture.ascii "bar"] ⟨fixture.with_symbols, 448, false⟩ :=
  ⟨by decide!, (queries_twice .uint64_t [] ⟨fixture.with_symbols, 17, false⟩).2.1.1 _ _
    (by decide!)⟩

/-- C17: on a well-formed file, with `S` the symbol records and `T` the string
table bytes that `symbols_text` loads, `symbols(f)` returns the list obtained
by walking `S` in order, keeping the visible records, resolving each to the
NUL-terminated string at offset `st_name` of `T` and dropping the empty names.
The result holds no empty string, follows the order of the table, and has at
most as many entries as the table has records, that is `sh_size /
sizeof(symbol_t)` of the symbol table section. -/
theorem symbols_walk (A : AddressOffsetT) (f : ifstream)
    (hgood : f.failbit = false) (wf : well_formed A f.bytes) :
    ∃ S T l f1 f2, symbols_text A f = .ok (S, T) f1 ∧ symbols A f = .ok l f2 ∧
      l = (((S.filter is_visible).map fun sym => string_at T sym.st_name).filter
        fun name => !name.isEmpty) ∧
      [] ∉ l ∧
      l.Sublist (S.map fun sym => string_at T sym.st_name) ∧
      l.length ≤ S.length ∧
      (∀ k, last_of_type A f.bytes SHT_SYMTAB_ k →
        S.length = (file_section A f.bytes k).sh_size / symbol_t.sizeof A) ∧
      (none_of_type A f.bytes SHT_SYMTAB_ → l = []) := by
  obtain ⟨data, p, fb⟩ := f
  simp only at hgood wf ⊢
  subst hgood
  obtain ⟨q, hq⟩ := symbols_text_ok A data wf p
  obtain ⟨q1, hq1⟩ := symbols_ok A data wf p
  have hsub : ((((loaded_tables A data).1.filter is_visible).map
      fun sym => string_at (loaded_tables A data).2 sym.st_name).filter
        fun name => !name.isEmpty).Sublist
      ((loaded_tables A data).1.map fun sym => string_at (loaded_tables A data).2 sym.st_name) :=
    (List.filter_sublist _).trans (List.Sublist.map _ (List.filter_sublist _))
  refine ⟨(loaded_tables A data).1, (loaded_tables A data).2, _, _, _, hq, hq1, rfl, ?_, hsub,
    ?_, ?_, ?_⟩
  · intro h
    have := (List.mem_filter.mp h).2
    simp at this
  · have := hsub.length_le
    simpa using this
  · intro k hk
    rw [loaded_symbols_last A data k hk]
    exact decode_all_length _ _ _
  · intro hn
    rw [loaded_symbols_none A data hn]
    rfl

/-- C17, on the file with seven symbol records: `foo` and `bar` out of seven
records. -/
theorem symbols_walk_witness :
    well_formed .uint64_t fixture.with_symbols ∧
    ∃ S T l f1 f2, symbols_text .uint64_t ⟨fixture.with_symbols, 0, false⟩ = .ok (S, T) f1 ∧
      symbols .uint64_t ⟨fixture.with_symbols, 0, false⟩ = .ok l f2 ∧
      l = (((S.filter is_visible).map fun sym => string_at T sym.st_name).filter
        fun name => !name.isEmpty) ∧
      [] ∉ l ∧
      l.Sublist (S.map fun sym => string_at T sym.st_name) ∧
      l.length ≤ S.length ∧
      (∀ k, last_of_type .uint64_t fixture.with_symbols SHT_SYMTAB_ k →
        S.length = (file_section .uint64_t fixture.with_symbols k).sh_size /
          symbol_t.sizeof .uint64_t) ∧
      (none_of_type .uint64_t fixture.with_symbols SHT_SYMTAB_ → l = []) :=
  ⟨by decide!, symbols_walk .uint64_t ⟨fixture.with_symbols, 0, false⟩ rfl (by decide!)⟩

/-- C18: on a section-name string table that is not empty and ends with a NUL
the splitting loop of `sections` ends, at the end of the table and without a
read outside the table, and returns the NUL-delimited records of the table in
string-table order: as many names as the table has NUL bytes, no name holding
a NUL, and the names, each followed by one NUL, put one after the other give
back the table.  `sections` returns this list whenever `sections_names_raw`
returned such a table. -/
theorem sections_splits_table (A : AddressOffsetT) (table : List Nat)
    (hlast : table.getLast? = some 0) :
    ∃ l, sections_loop table table.length 0 [] = some l ∧
      (∀ fuel, table.length ≤ fuel → sections_loop table fuel 0 [] = some l) ∧
      l.length = table.count 0 ∧ packed l = table ∧ (∀ name ∈ l, (0 : Nat) ∉ name) ∧
      ∀ f f1, sections_names_raw A f = .ok table f1 → ∃ f2, sections A f = .ok l f2 := by
  obtain ⟨names, hne, hnul, hp⟩ := exists_packed table.length table rfl hlast
  have hfuel : ∀ fuel, table.length ≤ fuel → sections_loop table fuel 0 [] = some names := by
    intro fuel hf
    have h := sections_loop_packed names hne hnul [] [] fuel
      (by have := packed_length_ge names; rw [hp] at this; omega)
    simpa only [List.nil_append, List.length_nil, hp] using h
  have hloop := hfuel table.length (Nat.le_refl _)
  refine ⟨names, hloop, hfuel, ?_, hp, hnul, ?_⟩
  · rw [← hp]; exact (packed_count names hnul).symm
  · intro f f1 h
    obtain ⟨h1, h2⟩ := keeps_sections_names_raw A f table f1 h
    obtain ⟨data, p, fb⟩ := f
    obtain ⟨data1, p1, fb1⟩ := f1
    simp only at h1 h2
    subst h1; subst h2
    cases fb1 with
    | true => simp [sections_names_raw, header, seekg] at h
    | false =>
      have hh : header_t.sizeof A ≤ data1.length := by
        by_contra hc
        obtain ⟨f3, hf⟩ := header_fail A data1 p hc
        simp only [sections_names_raw, bind_run, hf] at h
        cases h
      refine ⟨⟨data1, header_t.sizeof A, false⟩, ?_⟩
      simp only [sections, bind_run, h, header_ok A data1 p1 hh, hloop, StreamM.deref]

/-- C18, on the file with seven symbol records, whose section-name string
table has six NUL bytes and six records. -/
theorem sections_splits_table_witness :
    (names_table .uint64_t fixture.with_symbols).getLast? = some 0 ∧
    (names_table .uint64_t fixture.with_symbols).count 0 = 6 ∧
    sections_names_raw .uint64_t ⟨fixture.with_symbols, 0, false⟩ =
      .ok (names_table .uint64_t fixture.with_symbols) ⟨fixture.with_symbols, 503, false⟩ ∧
    ∃ l, sections_loop (names_table .uint64_t fixture.with_symbols)
        (names_table .uint64_t fixture.with_symbols).length 0 [] = some l ∧
      (∀ fuel, (names_table .uint64_t fixture.with_symbols).length ≤ fuel →
        sections_loop (names_table .uint64_t fixture.with_symbols) fuel 0 [] = some l) ∧
      l.length = (names_table .uint64_t fixture.with_symbols).count 0 ∧
      packed l = names_table .uint64_t fixture.with_symbols ∧
      (∀ name ∈ l, (0 : Nat) ∉ name) ∧
      ∀ f f1, sections_names_raw .uint64_t f =
          .ok (names_table .uint64_t fixture.with_symbols) f1 →
        ∃ f2, sections .uint64_t f = .ok l f2 :=
  ⟨by decide!, by decide!, by decide!,
    sections_splits_table .uint64_t (names_table .uint64_t fixture.with_symbols) (by decide!)⟩

/-- C20: when `symbols_text` returns, it has scanned all `e_shnum` section
headers in table order, header `i` being the one at `e_shoff + i *
sizeof(section_t)`, and the get position is behind the last header; later
sections replace earlier ones, so the symbol records are those of the last
section of type `SHT_SYMTAB_` and the text is the bytes of the last section of
type `SHT_STRTAB_`, the field `sh_link` playing no part; an output stays empty
when no section has its type.  On a well-formed file `symbols_text` returns. -/
theorem symbols_text_last_wins (A : AddressOffsetT) (f : ifstream) :
    (∀ (r : List symbol_t × List Nat) (f1 : ifstream), symbols_text A f = .ok r f1 →
      f1 = ⟨f.bytes, (file_header A f.bytes).e_shoff +
        (file_header A f.bytes).e_shnum * section_t.sizeof A, false⟩ ∧
      r = ((List.range' 0 (file_header A f.bytes).e_shnum).map (file_section A f.bytes)).foldl
        (load_section A f.bytes) ([], []) ∧
      (∀ k, last_of_type A f.bytes SHT_SYMTAB_ k → r.1 = symtab_records A f.bytes k) ∧
      (none_of_type A f.bytes SHT_SYMTAB_ → r.1 = []) ∧
      (∀ k, last_of_type A f.bytes SHT_STRTAB_ k →
        r.2 = section_bytes f.bytes (file_section A f.bytes k)) ∧
      (none_of_type A f.bytes SHT_STRTAB_ → r.2 = []))
    ∧ (∀ (acc : List symbol_t × List Nat) (s : section_t) (link : Nat),
      load_section A f.bytes acc { s with sh_link := link } = load_section A f.bytes acc s)
    ∧ (f.failbit = false → well_formed A f.bytes → ∃ r f1, symbols_text A f = .ok r f1) := by
  obtain ⟨data, p, fb⟩ := f
  refine ⟨?_, fun acc s link => rfl, ?_⟩
  · intro r f1 h
    cases fb with
    | true => rw [symbols_text_failed] at h; cases h
    | false =>
      obtain ⟨_, h2, h3, _⟩ := symbols_text_returns A data p r f1 h
      subst h3
      exact ⟨h2, rfl, fun k hk => loaded_symbols_last A data k hk,
        fun hn => loaded_symbols_none A data hn, fun k hk => loaded_text_last A data k hk,
        fun hn => loaded_text_none A data hn⟩
  · intro hgood wf
    simp only at hgood wf
    subst hgood
    obtain ⟨q, hq⟩ := symbols_text_ok A data wf p
    exact ⟨_, _, hq⟩

/-- C20, on the file with seven symbol records: the scan returns the seven
records of section 4 and the bytes of section 5, the last string table. -/
theorem symbols_text_last_wins_witness :
    symbols_text .uint64_t ⟨fixture.with_symbols, 0, false⟩ =
      .ok (symtab_records .uint64_t fixture.with_symbols 4,
        section_bytes fixture.with_symbols (file_section .uint64_t fixture.with_symbols 5))
        ⟨fixture.with_symbols, 448, false⟩ ∧
    last_of_type .uint64_t fixture.with_symbols SHT_SYMTAB_ 4 ∧
    last_of_type .uint64_t fixture.with_symbols SHT_STRTAB_ 5 ∧
    (symtab_records .uint64_t fixture.with_symbols 4,
        section_bytes fixture.with_symbols (file_section .uint64_t fixture.with_symbols 5)).1 =
      symtab_records .uint64_t fixture.with_symbols 4 :=
  ⟨by decide!, by decide!, by decide!,
    ((symbols_text_last_wins .uint64_t ⟨fixture.with_symbols, 0, false⟩).1
      (symtab_records .uint64_t fixture.with_symbols 4,
        section_bytes fixture.with_symbols (file_section .uint64_t fixture.with_symbols 5))
      ⟨fixture.with_symbols, 448, false⟩ (by decide!)).2.2.1 4 (by decide!)⟩

/-- C21: on a well-formed file, for a section name that is the decoded name of
no section header, the section loop of `symbols(f, section_name)` runs to the
end of the table and leaves `index = e_shnum`; with `S` the symbol records and
`T` the string table bytes that `symbols_text` loads, the result is the list
of the names, in table order, of the visible records of `S` with `st_shndx =
e_shnum` and a non-empty name.  When no record has `st_shndx = e_shnum` the
result is the empty list. -/
theorem symbols_in_no_match (A : AddressOffsetT) (f : ifstream) (section_name : List Nat)
    (hgood : f.failbit = false) (wf : well_formed A f.bytes)
    (hunknown : ∀ i, i < (file_header A f.bytes).e_shnum →
      name_of_section A f.bytes i ≠ c_string section_name) :
    (∀ p, ∃ q, find_section A (names_table A f.bytes) (file_header A f.bytes) section_name
        (file_header A f.bytes).e_shnum 0 ⟨f.bytes, p, false⟩ =
      .ok (file_header A f.bytes).e_shnum ⟨f.bytes, q, false⟩) ∧
    ∃ S T l f1 f2, symbols_text A f = .ok (S, T) f1 ∧ symbols_in A section_name f = .ok l f2 ∧
      l = ((S.filter fun sym =>
            sym.st_shndx == (file_header A f.bytes).e_shnum && is_visible sym).map
          fun sym => string_at T sym.st_name).filter (fun name => !name.isEmpty) ∧
      (∀ name, name ∈ l ↔ name ≠ [] ∧ ∃ sym ∈ S, sym.st_shndx = (file_header A f.bytes).e_shnum ∧
        is_visible sym = true ∧ string_at T sym.st_name = name) ∧
      ((∀ sym ∈ S, sym.st_shndx ≠ (file_header A f.bytes).e_shnum) → l = []) := by
  obtain ⟨data, p, fb⟩ := f
  simp only at hgood wf hunknown ⊢
  subst hgood
  have hfind : ∀ p1, ∃ q, find_section A (names_table A data) (file_header A data) section_name
      (file_header A data).e_shnum 0 ⟨data, p1, false⟩ =
        .ok (file_header A data).e_shnum ⟨data, q, false⟩ := by
    intro p1
    have h := (find_section_ok A data wf section_name (file_header A data).e_shnum 0 p1
      (by omega)).1 (fun j _ hj => hunknown j (by omega))
    simpa using h
  obtain ⟨q, hq⟩ := symbols_in_index A data wf section_name _ p hfind
  obtain ⟨q0, hq0⟩ := symbols_text_ok A data wf p
  refine ⟨hfind, (loaded_tables A data).1, (loaded_tables A data).2, _, _, _, hq0, hq, rfl, ?_, ?_⟩
  · intro name
    simp only [List.mem_filter, List.mem_map, Bool.and_eq_true, beq_iff_eq, Bool.not_eq_true',
      List.isEmpty_eq_false]
    constructor
    · rintro ⟨⟨sym, ⟨hs, h1, h2⟩, h3⟩, hne⟩
      exact ⟨hne, sym, hs, h1, h2, h3⟩
    · rintro ⟨hne, sym, hs, h1, h2, h3⟩
      exact ⟨⟨sym, ⟨hs, h1, h2⟩, h3⟩, hne⟩
  · intro hnone
    have : ((loaded_tables A data).1.filter fun sym =>
        sym.st_shndx == (file_header A data).e_shnum && is_visible sym) = [] := by
      rw [List.filter_eq_nil_iff]
      intro sym hs
      simp only [Bool.and_eq_true, beq_iff_eq, not_and]
      intro h
      exact absurd h (hnone sym hs)
    rw [this]
    rfl

/-- C21, on the file whose record `foo` has `st_shndx = 6 = e_shnum` and the
name `bogus`, which names none of its sections: the result is `foo`. -/
theorem symbols_in_no_match_witness :
    well_formed .uint64_t fixture.index_past_table ∧
    (file_header .uint64_t fixture.index_past_table).e_shnum = 6 ∧
    (∀ i, i < (file_header .uint64_t fixture.index_past_table).e_shnum →
      name_of_section .uint64_t fixture.index_past_table i ≠ c_string (fixture.ascii "bogus")) ∧
    symbols_in .uint64_t (fixture.ascii "bogus") ⟨fixture.index_past_table, 0, false⟩ =
      .ok [fixture.ascii "foo"] ⟨fixture.index_past_table, 448, false⟩ ∧
    (∃ S T l f1 f2, symbols_text .uint64_t ⟨fixture.index_past_table, 0, false⟩ = .ok (S, T) f1 ∧
      symbols_in .uint64_t (fixture.ascii "bogus") ⟨fixture.index_past_table, 0, false⟩ =
        .ok l f2 ∧
      l = ((S.filter fun sym =>
            sym.st_shndx == (file_header .uint64_t fixture.index_past_table).e_shnum &&
              is_visible sym).map
          fun sym => string_at T sym.st_name).filter (fun name => !name.isEmpty) ∧
      (∀ name, name ∈ l ↔ name ≠ [] ∧ ∃ sym ∈ S,
        sym.st_shndx = (file_header .uint64_t fixture.index_past_table).e_shnum ∧
        is_visible sym = true ∧ string_at T sym.st_name = name) ∧
      ((∀ sym ∈ S, sym.st_shndx ≠ (file_header .uint64_t fixture.index_past_table).e_shnum) →
        l = [])) :=
  ⟨by decide!, by decide!, by decide!, by decide!,
    (symbols_in_no_match .uint64_t ⟨fixture.index_past_table, 0, false⟩ (fixture.ascii "bogus")
      rfl (by decide!) (by decide!)).2⟩

end boost.dll.detail.elf_info

/-! ## The dispatcher -/

namespace boost.dll.library_info
open std

/-- Each native-format check ends normally or with its own message. -/
theorem policy_windows (h : host) : policy_like (throw_if_in_windows h) := by
  unfold throw_if_in_windows; split
  · exact Or.inr ⟨_, rfl, by decide⟩
  · exact Or.inl rfl

theorem policy_macos (h : host) : policy_like (throw_if_in_macos h) := by
  unfold throw_if_in_macos; split
  · exact Or.inr ⟨_, rfl, by decide⟩
  · exact Or.inl rfl

theorem policy_linux (h : host) : policy_like (throw_if_in_linux h) := by
  unfold throw_if_in_linux; split
  · exact Or.inr ⟨_, rfl, by decide⟩
  · exact Or.inl rfl

theorem policy_32bit (h : host) : policy_like (throw_if_in_32bit h) := by
  unfold throw_if_in_32bit; split
  · exact Or.inr ⟨_, rfl, by decide⟩
  · exact Or.inl rfl

/-- Two checks in a row behave like one check. -/
theorem policy_seq {x y : Except String Unit} (hx : policy_like x) (hy : policy_like y) :
    policy_like (do x; y) := by
  rcases hx with hx | ⟨e, hx, he⟩
  · subst hx; exact hy
  · subst hx; exact Or.inr ⟨e, rfl, he⟩

/-- What a branch of `init` can end with. -/
theorem branch_spec (flag : Bool) (x : Except String Unit) (t : tag) (hx : policy_like x) :
    (branch flag x t = .ok t ∨
      (flag = true ∧ ∃ e, branch flag x t = .error e ∧ e ≠ "Unsupported binary format"))
    ∧ branch false x t = .ok t
    ∧ (∀ t1, branch flag x t = .ok t1 → t1 = t)
    ∧ branch flag x t ≠ .error "Unsupported binary format" := by
  cases flag
  · exact ⟨Or.inl rfl, rfl, fun t1 h => by cases h; rfl, fun h => by cases h⟩
  · rcases hx with hx | ⟨e, hx, he⟩
    · subst hx
      exact ⟨Or.inl rfl, rfl, fun t1 h => by cases h; rfl, fun h => by cases h⟩
    · subst hx
      have h1 : branch true (Except.error e) t = Except.error e := rfl
      refine ⟨Or.inr ⟨rfl, e, rfl, he⟩, rfl, ?_, ?_⟩
      · intro t1 h
        rw [h1] at h
        cases h
      · intro h
        rw [h1] at h
        cases h
        exact he rfl

/-- With a detector that returned `true`, `init` is the branch of the first
such detector: its native-format checks when asked for, then its tag. -/
theorem init_branch (d : detectors) (h : host) (flag : Bool) (t : tag)
    (hdet : first_detected d = some t) : init d h flag = branch flag (native_checks h t) t := by
  obtain ⟨d1, d2, d3, d4, d5, d6⟩ := d
  cases d1
  · cases d2
    · cases d3
      · cases d4
        · cases d5
          · cases d6
            · cases hdet
            · cases hdet
              simp only [init, branch, native_checks, if_true, bind_assoc, Bool.false_eq_true,
                if_false]
          · cases hdet
            simp only [init, branch, native_checks, if_true, bind_assoc, Bool.false_eq_true,
              if_false]
        · cases hdet
          simp only [init, branch, native_checks, if_true, bind_assoc, Bool.false_eq_true,
            if_false]
      · cases hdet
        simp only [init, branch, native_checks, if_true, bind_assoc, Bool.false_eq_true,
          if_false]
    · cases hdet
      simp only [init, branch, native_checks, if_true, bind_assoc, Bool.false_eq_true, if_false]
  · cases hdet
    simp only [init, branch, native_checks, if_true, bind_assoc, Bool.false_eq_true, if_false]

/-- The checks of a format pass exactly on its native family, with pointers
that are not 4 bytes wide for a 64-bit format; otherwise they end with a
message of their own. -/
theorem native_checks_spec (h : host) (F : os_family) (t : tag) (hF : in_family h F)
    (ht : t ≠ tag.tag_none) :
    (native_checks h t = .ok () ↔
      (native_family t = some F ∧ (is_64bit t = true → h.sizeof_void_ptr ≠ 4))) ∧
    (native_checks h t = .ok () ∨
      ∃ e, native_checks h t = .error e ∧ e ≠ "Unsupported binary format") := by
  obtain ⟨w, m, i, sz⟩ := h
  by_cases hsz : sz = 4 <;> cases w <;> cases m <;> cases i <;> cases F <;> cases t <;>
    simp_all [in_family, native_checks, native_family, is_64bit, throw_if_in_windows,
      throw_if_in_macos, throw_if_in_linux, throw_if_in_32bit, bind, Except.bind, pure,
      Except.pure, throw, throwThe, MonadExceptOf.throw]

/-- A detector that returned `true` activates a tag other than `tag_none`. -/
theorem first_detected_ne_none (d : detectors) (t : tag) (hdet : first_detected d = some t) :
    t ≠ tag.tag_none := by
  obtain ⟨d1, d2, d3, d4, d5, d6⟩ := d
  cases d1 <;> cases d2 <;> cases d3 <;> cases d4 <;> cases d5 <;> cases d6 <;> cases hdet <;>
    decide

/-- A branch of `init` without checks, or whose checks pass, ends with its tag;
a branch whose checks throw ends with their message. -/
theorem branch_eval (x : Except String Unit) (t : tag) :
    branch false x t = .ok t ∧ (x = .ok () → branch true x t = .ok t) ∧
    (∀ e, x = .error e → branch true x t = .error e) :=
  ⟨rfl, fun h => by subst h; rfl, fun e h => by subst h; rfl⟩

/-! ## The claims on the dispatcher -/

/-- C10: `init` probes the detectors in the order ELF32, ELF64, PE32, PE64,
Mach-O32, Mach-O64.  It ends with the error `Unsupported binary format` exactly
when no detector returned `true`; when it succeeds the tag is the one of the
first detector that returned `true` and never `tag_none`; when a detector
returned `true` it either succeeds with that tag or the native-format checks,
which run only on request, reject the file with another message. -/
theorem init_first_detected (d : detectors) (h : host) (throw_if_not_native : Bool) :
    (init d h throw_if_not_native = .error "Unsupported binary format" ↔
      (d.elf_info32 = false ∧ d.elf_info64 = false ∧ d.pe_info32 = false ∧ d.pe_info64 = false ∧
        d.macho_info32 = false ∧ d.macho_info64 = false))
    ∧ (∀ t, init d h throw_if_not_native = .ok t → t ≠ tag.tag_none ∧ first_detected d = some t)
    ∧ (∀ t, first_detected d = some t →
        init d h throw_if_not_native = .ok t ∨
        (throw_if_not_native = true ∧ ∃ e, init d h throw_if_not_native = .error e ∧
          e ≠ "Unsupported binary format"))
    ∧ (∀ t, first_detected d = some t → init d h false = .ok t) := by
  have fin : ∀ (x : Except String Unit) (t : tag), policy_like x → t ≠ tag.tag_none →
      first_detected d = some t →
      (∀ flag, init d h flag = branch flag x t) →
      (d.elf_info32 = false ∧ d.elf_info64 = false ∧ d.pe_info32 = false ∧ d.pe_info64 = false ∧
        d.macho_info32 = false ∧ d.macho_info64 = false → False) →
      ((init d h throw_if_not_native = .error "Unsupported binary format" ↔
        (d.elf_info32 = false ∧ d.elf_info64 = false ∧ d.pe_info32 = false ∧ d.pe_info64 = false ∧
          d.macho_info32 = false ∧ d.macho_info64 = false))
      ∧ (∀ t, init d h throw_if_not_native = .ok t → t ≠ tag.tag_none ∧ first_detected d = some t)
      ∧ (∀ t, first_detected d = some t →
          init d h throw_if_not_native = .ok t ∨
          (throw_if_not_native = true ∧ ∃ e, init d h throw_if_not_native = .error e ∧
            e ≠ "Unsupported binary format"))
      ∧ (∀ t, first_detected d = some t → init d h false = .ok t)) := by
    intro x t hx ht hfirst hinit hsome
    obtain ⟨b1, b2, b3, b4⟩ := branch_spec throw_if_not_native x t hx
    rw [hinit throw_if_not_native, hinit false, hfirst]
    refine ⟨⟨fun e => absurd e b4, fun e => (hsome e).elim⟩, ?_, ?_, ?_⟩
    · intro t1 e; rw [b3 t1 e]; exact ⟨ht, rfl⟩
    · intro t1 e; cases e; exact b1
    · intro t1 e; cases e; exact b2
  obtain ⟨d1, d2, d3, d4, d5, d6⟩ := d
  cases d1
  · cases d2
    · cases d3
      · cases d4
        · cases d5
          · cases d6
            · refine ⟨⟨fun _ => ⟨rfl, rfl, rfl, rfl, rfl, rfl⟩, fun _ => rfl⟩, ?_, ?_, ?_⟩
              · intro t e; cases e
              · intro t e; cases e
              · intro t e; cases e
            · exact fin _ tag.tag_macho_info64 (policy_seq (policy_linux h) (policy_seq (policy_windows h) (policy_32bit h)))
                (by decide) rfl
                (fun _ => by simp only [init, branch, if_true, bind_assoc, Bool.false_eq_true, if_false])
                (by simp)
          · exact fin _ tag.tag_macho_info32 (policy_seq (policy_linux h) (policy_windows h))
              (by decide) rfl
                (fun _ => by simp only [init, branch, if_true, bind_assoc, Bool.false_eq_true, if_false])
                (by simp)
        · exact fin _ tag.tag_pe_info64 (policy_seq (policy_linux h) (policy_seq (policy_macos h) (policy_32bit h)))
            (by decide) rfl
                (fun _ => by simp only [init, branch, if_true, bind_assoc, Bool.false_eq_true, if_false])
                (by simp)
      · exact fin _ tag.tag_pe_info32 (policy_seq (policy_linux h) (policy_macos h))
          (by decide) rfl
                (fun _ => by simp only [init, branch, if_true, bind_assoc, Bool.false_eq_true, if_false])
                (by simp)
    · exact fin _ tag.tag_elf_info64 (policy_seq (policy_windows h) (policy_seq (policy_macos h) (policy_32bit h)))
        (by decide) rfl
                (fun _ => by simp only [init, branch, if_true, bind_assoc, Bool.false_eq_true, if_false])
                (by simp)
  · exact fin _ tag.tag_elf_info32 (policy_seq (policy_windows h) (policy_macos h))
      (by decide) rfl
                (fun _ => by simp only [init, branch, if_true, bind_assoc, Bool.false_eq_true, if_false])
                (by simp)

/-- C11, refuted as stated: on a host that is neither Windows nor Apple and
has pointers of 8 bytes, `init` with the native check accepts a file detected
as ELF32. -/
theorem native_elf_host_counterexample :
    init ⟨true, false, false, false, false, false⟩ ⟨false, false, false, 8⟩ true =
      .ok tag.tag_elf_info32 ∧
    first_detected ⟨true, false, false, false, false, false⟩ = some tag.tag_elf_info32 :=
  ⟨rfl, rfl⟩

/-- C11, amended: with the native check, on a host that is neither Windows nor
Apple and has pointers of 8 bytes, `init` accepts ELF of either width and
nothing else: it succeeds for ELF32 and ELF64 and fails with the message
`Not native format: not an ELF binary` for PE32, PE64, Mach-O32 and
Mach-O64. -/
theorem native_elf_host (d : detectors) (h : host) (t : tag)
    (hw : h.BOOST_OS_WINDOWS = false) (hm : h.BOOST_OS_MACOS = false)
    (hi : h.BOOST_OS_IOS = false) (hptr : h.sizeof_void_ptr = 8)
    (hdet : first_detected d = some t) :
    ((t = tag.tag_elf_info32 ∨ t = tag.tag_elf_info64) → init d h true = .ok t) ∧
    ((t = tag.tag_pe_info32 ∨ t = tag.tag_pe_info64 ∨ t = tag.tag_macho_info32 ∨
        t = tag.tag_macho_info64) →
      init d h true = .error "Not native format: not an ELF binary") := by
  rw [init_branch d h true t hdet]
  obtain ⟨w, m, i, sz⟩ := h
  simp only at hw hm hi hptr
  subst hw; subst hm; subst hi; subst hptr
  constructor
  · rintro (ht | ht) <;> subst ht <;> rfl
  · rintro (ht | ht | ht | ht) <;> subst ht <;> rfl

/-- C11 amended, on a file detected as PE64. -/
theorem native_elf_host_witness :
    first_detected ⟨false, false, false, true, false, false⟩ = some tag.tag_pe_info64 ∧
    init ⟨false, false, false, true, false, false⟩ ⟨false, false, false, 8⟩ true =
      .error "Not native format: not an ELF binary" :=
  ⟨rfl, (native_elf_host ⟨false, false, false, true, false, false⟩ ⟨false, false, false, 8⟩
    tag.tag_pe_info64 rfl rfl rfl rfl rfl).2 (Or.inr (Or.inl rfl))⟩

/-- C19: the native-format policy of `init` depends only on the detected
format, the family of the host, the size of its pointers and the flag.
Without the flag no detected format is rejected.  With the flag a detected
format is accepted exactly when its family is the native one of the host
family (ELF on the other hosts, PE on Windows, Mach-O on Apple) and, for a
64-bit format, the pointers of the host are not 4 bytes wide; a rejection has
a message of its own, not the one of the unsupported format. -/
theorem native_policy (d : detectors) (h : host) (F : os_family) (t : tag)
    (hdet : first_detected d = some t) (hF : in_family h F) :
    init d h false = .ok t ∧
    (init d h true = .ok t ↔
      (native_family t = some F ∧ (is_64bit t = true → h.sizeof_void_ptr ≠ 4))) ∧
    (init d h true = .ok t ∨
      ∃ e, init d h true = .error e ∧ e ≠ "Unsupported binary format") ∧
    (∀ (d1 : detectors) (h1 : host) (flag : Bool), first_detected d1 = some t →
      in_family h1 F → h1.sizeof_void_ptr = h.sizeof_void_ptr →
      (init d1 h1 flag = .ok t ↔ init d h flag = .ok t)) := by
  have key : ∀ (d : detectors) (h : host), first_detected d = some t → in_family h F →
      init d h false = .ok t ∧
      (init d h true = .ok t ↔
        (native_family t = some F ∧ (is_64bit t = true → h.sizeof_void_ptr ≠ 4))) ∧
      (init d h true = .ok t ∨
        ∃ e, init d h true = .error e ∧ e ≠ "Unsupported binary format") := by
    intro d h hdet hF
    have ht := first_detected_ne_none d t hdet
    obtain ⟨h1, h2⟩ := native_checks_spec h F t hF ht
    obtain ⟨b1, b2, b3⟩ := branch_eval (native_checks h t) t
    rw [init_branch d h false t hdet, init_branch d h true t hdet]
    refine ⟨b1, ?_, ?_⟩
    · rw [← h1]
      constructor
      · intro hok
        rcases h2 with h2 | ⟨e, h2, _⟩
        · exact h2
        · rw [b3 e h2] at hok; cases hok
      · exact b2
    · rcases h2 with h2 | ⟨e, h2, he⟩
      · exact Or.inl (b2 h2)
      · exact Or.inr ⟨e, b3 e h2, he⟩
  obtain ⟨k1, k2, k3⟩ := key d h hdet hF
  refine ⟨k1, k2, k3, ?_⟩
  intro d1 h1 flag hdet1 hF1 hptr
  obtain ⟨j1, j2, _⟩ := key d1 h1 hdet1 hF1
  cases flag
  · exact ⟨fun _ => k1, fun _ => j1⟩
  · rw [k2, j2, hptr]

/-- C19, on a Windows host with pointers of 4 bytes and a file detected as
PE64: accepted without the flag, rejected with it. -/
theorem native_policy_witness :
    first_detected ⟨false, false, false, true, false, false⟩ = some tag.tag_pe_info64 ∧
    in_family ⟨true, false, false, 4⟩ os_family.windows ∧
    init ⟨false, false, false, true, false, false⟩ ⟨true, false, false, 4⟩ false =
      .ok tag.tag_pe_info64 ∧
    ¬ init ⟨false, false, false, true, false, false⟩ ⟨true, false, false, 4⟩ true =
      .ok tag.tag_pe_info64 :=
  ⟨rfl, ⟨rfl, rfl, rfl⟩,
    (native_policy ⟨false, false, false, true, false, false⟩ ⟨true, false, false, 4⟩
      os_family.windows tag.tag_pe_info64 rfl ⟨rfl, rfl, rfl⟩).1,
    fun hok => ((native_policy ⟨false, false, false, true, false, false⟩ ⟨true, false, false, 4⟩
      os_family.windows tag.tag_pe_info64 rfl ⟨rfl, rfl, rfl⟩).2.1.mp hok).2 rfl rfl⟩

end boost.dll.library_info
